import Mathlib

/-!
Verification of the document-indexing / similarity-search pipeline.

This file gives a shallow embedding of the program's core components and
proves (or refutes) the frozen specification claims about them:

* `src/utils/shared_utils.py` : `chunk_by_paragraphs`, `_embed_with_retry`,
  `generate_embeddings`;
* `src/index_documents.py`    : `_validate_data_for_indexing`,
  `store_chunks_to_db`, `process_document`;
* `src/search_documents.py`   : `_search_single_embedding`,
  `_merge_search_results`, `similarity_search`.

Modelling conventions:

* Python strings are `List Char` (`Str`); embedding vectors are `List ℚ`.
* Functions that can raise a Python exception return `Except`; an exception
  that a function catches internally does not appear in its result type.
* The remote embedding service, the document loader and the
  delete-document database call are external collaborators; they are
  parameters (oracles) of the functions that call them.
* The database table is a pure value `List DocRecord`; SQL statements used
  by the program (`dot_product`, `vector_norm`, the ranked `SELECT`, the
  bulk `INSERT`) are embedded as pure functions on that value.
* Machine floating point is idealised as exact rational arithmetic; the
  square root used by `numpy.linalg.norm` / `vector_norm` is modelled by
  `ratSqrt`, which agrees with the real square root on every input whose
  numerator and denominator are perfect squares.  Every concrete instance
  evaluated in this file uses only such inputs, and no theorem depends on
  the value of `ratSqrt` elsewhere (only on `ratSqrt q = 0 ↔ q = 0` for
  `q ≥ 0`, which holds for the real square root as well).
-/

deriving instance DecidableEq for Except

abbrev Str := List Char

abbrev Vec := List ℚ

/-! ### Text primitives (Python `str.strip`, `str.split`) -/

/-- Python whitespace characters (the ASCII ones used by `str.strip()`). -/
def isWS (c : Char) : Bool :=
  c = ' ' || c = '\t' || c = '\n' || c = '\r' || c = '\x0b' || c = '\x0c'

/-- Python `s.strip()`: drop leading and trailing whitespace. -/
def strip (s : Str) : Str :=
  ((s.dropWhile isWS).reverse.dropWhile isWS).reverse

/-- Python `s.split("\n\n")`: split at non-overlapping occurrences of two
consecutive newline characters, scanning left to right. -/
def splitNN : Str → List Str
  | [] => [[]]
  | [c] => [[c]]
  | a :: b :: rest =>
    if a = '\n' ∧ b = '\n' then [] :: splitNN rest
    else (a :: (splitNN (b :: rest)).headI) :: (splitNN (b :: rest)).tail

/-- Whether a string contains two consecutive newline characters. -/
def hasNN : Str → Bool
  | [] => false
  | [_] => false
  | a :: b :: rest => (a = '\n' && b = '\n') || hasNN (b :: rest)

/-- Join a list of strings with the separator `"\n\n"` (Python
`"\n\n".join(...)`). -/
def joinNN : List Str → Str
  | [] => []
  | [c] => c
  | c :: rest => c ++ '\n' :: '\n' :: joinNN rest

/-- Join paragraphs, putting `List.replicate k '\n'` between consecutive
paragraphs, where `k` is taken from the second list. -/
def joinSeps : List Str → List ℕ → Str
  | [], _ => []
  | p :: _, [] => p
  | p :: ps, k :: ks => p ++ List.replicate k '\n' ++ joinSeps ps ks

/-! ### Chunker (`chunk_by_paragraphs`, src/utils/shared_utils.py lines 13-38) -/

inductive ChunkErr
  /-- the `ValueError("Cannot chunk empty text")` raised on empty input -/
  | emptyText
deriving DecidableEq, Repr

/-- The chunk list produced on the success path of `chunk_by_paragraphs`:
split on `"\n\n"`, strip every piece, drop pieces that are empty after
stripping. -/
def chunkCore (text : Str) : List Str :=
  ((splitNN text).map strip).filter (fun c => !c.isEmpty)

/-- `chunk_by_paragraphs` (src/utils/shared_utils.py): raises `ValueError`
when the text is empty or only whitespace, otherwise splits on `"\n\n"`,
strips each chunk and filters out empty chunks. -/
def chunk_by_paragraphs (text : Str) : Except ChunkErr (List Str) :=
  if strip text = [] then .error .emptyText
  else .ok (chunkCore text)

-- sanity checks of the embedding against the Python semantics
example : chunk_by_paragraphs "a\n\nb".toList = .ok ["a".toList, "b".toList] := by decide
example : chunk_by_paragraphs "a\n\n\nb".toList = .ok ["a".toList, "b".toList] := by decide
example : chunk_by_paragraphs "a\n\n\n\nb".toList = .ok ["a".toList, "b".toList] := by decide
example : chunk_by_paragraphs " x \n\n y ".toList = .ok ["x".toList, "y".toList] := by decide
example : chunk_by_paragraphs "a\n \nb".toList = .ok ["a\n \nb".toList] := by decide
example : chunk_by_paragraphs "  ".toList = .error .emptyText := by decide
example : splitNN "\n\n\n".toList = [[], ['\n']] := by decide

/-! ### Embedding client (`_embed_with_retry`, `generate_embeddings`,
src/utils/shared_utils.py lines 41-127)

The remote service `genai.embed_content` is an external collaborator; it is
modelled as an oracle `call : ℕ → Except ε ν` giving the outcome of each
(0-based) attempt. -/

inductive EmbedError (ε : Type) : Type
  /-- the `EmbeddingGenerationError` raised after the final failed attempt,
  wrapping the attempt budget and the final attempt's error -/
  | generationFailed : ℕ → ε → EmbedError ε
  /-- the implicit `None` returned by the Python function when the loop
  body never runs (`max_retries = 0`); unreachable for `max_retries = 3` -/
  | noAttempt : EmbedError ε
deriving DecidableEq, Repr

/-- Trace of one `_embed_with_retry` execution: how many attempts ran, the
backoff sleeps (in seconds) performed between attempts, and the outcome. -/
structure RetryTrace (ε ν : Type) : Type where
  attemptsMade : ℕ
  waits : List ℕ
  result : Except (EmbedError ε) ν
deriving DecidableEq, Repr

/-- The retry loop of `_embed_with_retry`: for `attempt` in
`range(max_retries)`, return the call's result on success; on failure
re-raise (wrapped) if this was the last attempt, otherwise sleep
`2 ^ attempt` seconds and continue. -/
def retryGo (call : ℕ → Except ε ν) (maxRetries : ℕ) (attempt : ℕ)
    (waits : List ℕ) : RetryTrace ε ν :=
  if _h : attempt < maxRetries then
    match call attempt with
    | .ok v => ⟨attempt + 1, waits, .ok v⟩
    | .error e =>
      if attempt = maxRetries - 1 then
        ⟨attempt + 1, waits, .error (.generationFailed maxRetries e)⟩
      else retryGo call maxRetries (attempt + 1) (waits ++ [2 ^ attempt])
  else ⟨attempt, waits, .error .noAttempt⟩
termination_by maxRetries - attempt
decreasing_by omega

/-- `_embed_with_retry` (src/utils/shared_utils.py lines 41-67). -/
def embed_with_retry (call : ℕ → Except ε ν) (maxRetries : ℕ) : RetryTrace ε ν :=
  retryGo call maxRetries 0 []

inductive GenErr (ε : Type) : Type
  /-- the `ValueError` raised when the chunks list is empty -/
  | invalidInput : GenErr ε
  /-- an `EmbeddingGenerationError` propagated from a batch call -/
  | generationFailed : ℕ → ε → GenErr ε
  /-- propagated `noAttempt` marker (unreachable, see `EmbedError`) -/
  | noAttempt : GenErr ε
deriving DecidableEq, Repr

/-- Lift a retry-level error to a `generate_embeddings`-level error. -/
def GenErr.ofEmbed : EmbedError ε → GenErr ε
  | .generationFailed n e => .generationFailed n e
  | .noAttempt => .noAttempt

/-- The batching loop of `generate_embeddings`: process `BATCH_SIZE = 10`
chunks at a time, each batch via `_embed_with_retry` (the oracle
`api attempt batch` is the outcome of the given attempt of
`genai.embed_content` on the given batch), extending the accumulated
result with each batch's vectors. -/
def embedBatches (api : ℕ → List Str → Except ε (List Vec)) (cs : List Str) :
    Except (GenErr ε) (List Vec) :=
  if hcs : cs = [] then .ok []
  else
    match (embed_with_retry (fun attempt => api attempt (cs.take 10)) 3).result with
    | .error e => .error (GenErr.ofEmbed e)
    | .ok vs =>
      match embedBatches api (cs.drop 10) with
      | .error e => .error e
      | .ok rest => .ok (vs ++ rest)
termination_by cs.length
decreasing_by
  simp only [List.length_drop]
  have := List.length_pos.mpr hcs
  omega

/-- `generate_embeddings` (src/utils/shared_utils.py lines 70-127): raises
`ValueError` on an empty chunk list, otherwise embeds the chunks in
batches of 10.  Configuration loading is modelled as succeeding (its
failure mode is outside every claim about this function). -/
def generate_embeddings (api : ℕ → List Str → Except ε (List Vec))
    (chunks : List Str) : Except (GenErr ε) (List Vec) :=
  if chunks = [] then .error .invalidInput
  else embedBatches api chunks

/-! ### Vector arithmetic and the stored-record model -/

/-- Sum of squares of a vector (the square of its Euclidean norm). -/
def norm2 (v : Vec) : ℚ :=
  (v.map (fun x => x * x)).sum

/-- The SQL function `dot_product(a, b)` (src/utils/db_utils.py): sum of
pairwise products over positions present in both vectors. -/
def dot_product (a b : Vec) : ℚ :=
  (List.zipWith (fun x y => x * y) a b).sum

/-- Rational model of the square root (used by `numpy.linalg.norm` and the
SQL function `vector_norm`).  Exact whenever the numerator and denominator
of the reduced input are perfect squares — which covers every concrete
input evaluated in this file; for `q ≥ 0` it satisfies
`ratSqrt q = 0 ↔ q = 0`, like the real square root, and no theorem below
uses any other property of it. -/
def ratSqrt (q : ℚ) : ℚ :=
  (Nat.sqrt q.num.toNat : ℚ) / (Nat.sqrt q.den : ℚ)

/-- A row of the `documents` table, in the column order of the program's
`INSERT` statement (src/index_documents.py lines 158-170). -/
structure DocRecord : Type where
  filename : Str
  chunk_text : Str
  split_strategy : Str
  embedding : Vec
  embedding_norm : ℚ
deriving DecidableEq, Repr

/-- A search-result dictionary built by `_search_single_embedding`
(src/search_documents.py lines 149-154). -/
structure SearchResult : Type where
  chunk_text : Str
  filename : Str
  split_strategy : Str
  similarity_score : ℚ
deriving DecidableEq, Repr

/-- The descending-score comparison realised by the SQL clause
`ORDER BY similarity_score DESC`. -/
def scoreGE (a b : SearchResult) : Prop :=
  b.similarity_score ≤ a.similarity_score

instance : DecidableRel scoreGE :=
  fun a b => inferInstanceAs (Decidable (_ ≤ _))

instance : IsTotal SearchResult scoreGE :=
  ⟨fun a b => le_total b.similarity_score a.similarity_score⟩

instance : IsTrans SearchResult scoreGE :=
  ⟨fun _ _ _ h1 h2 => le_trans h2 h1⟩

/-! ### Single-embedding search (`_search_single_embedding`,
src/search_documents.py lines 112-171) -/

/-- `_search_single_embedding`: compute the query norm and return no
results if it is zero; otherwise score every stored record whose
`embedding_norm` is positive with
`dot_product(embedding, query) / (embedding_norm * query_norm)`, order by
score descending and keep the first `top_k` rows. -/
def search_single_embedding (embedding : Vec) (db : List DocRecord)
    (top_k : ℕ) : List SearchResult :=
  let queryNorm := ratSqrt (norm2 embedding)
  if queryNorm = 0 then []
  else
    (List.insertionSort scoreGE
      ((db.filter (fun r => decide (0 < r.embedding_norm))).map (fun r =>
        ⟨r.chunk_text, r.filename, r.split_strategy,
          dot_product r.embedding embedding / (r.embedding_norm * queryNorm)⟩))).take top_k

/-! ### Cross-query merge (`_merge_search_results`,
src/search_documents.py lines 45-83) -/

/-- State of the merge loop: the accumulated `final_results` list and the
`seen_chunks` map from chunk text to index in `final_results` (the Python
dict is modelled as an association list with distinct keys). -/
structure MergeState : Type where
  final : List SearchResult
  seen : List (Str × ℕ)
deriving DecidableEq, Repr

/-- Lookup in the `seen_chunks` map. -/
def findSeen (t : Str) : List (Str × ℕ) → Option ℕ
  | [] => none
  | (t', i) :: rest => if t' = t then some i else findSeen t rest

/-- The body of the merge loop for one result `r`: if its chunk text was
already seen, replace the earlier occurrence when `r` has the strictly
higher similarity score; otherwise append `r` and record its index. -/
def processResult (st : MergeState) (r : SearchResult) : MergeState :=
  match findSeen r.chunk_text st.seen with
  | some i =>
    match st.final.get? i with
    | some old =>
      if old.similarity_score < r.similarity_score then
        ⟨st.final.set i r, st.seen⟩
      else st
    | none => st
  | none => ⟨st.final ++ [r], (r.chunk_text, st.final.length) :: st.seen⟩

/-- The inner loop of `_merge_search_results`: one round-robin pass over
the per-query result lists at a fixed `round` index, stopping as soon as
`top_k` results have been collected; a list shorter than the round index
is skipped. -/
def innerPass (top_k round : ℕ) : MergeState → List (List SearchResult) → MergeState
  | st, [] => st
  | st, l :: ls =>
    if top_k ≤ st.final.length then st
    else
      match l.get? round with
      | none => innerPass top_k round st ls
      | some r => innerPass top_k round (processResult st r) ls

/-- The outer loop of `_merge_search_results` over
`round_index in range(top_k)`, with the early exit once `top_k` results
have been collected.  `fuel` counts the remaining rounds, so the current
round index is `round` and `round + fuel` equals `top_k` at every call. -/
def roundLoop (top_k : ℕ) (lists : List (List SearchResult)) :
    ℕ → ℕ → MergeState → MergeState
  | _, 0, st => st
  | round, fuel + 1, st =>
    if top_k ≤ st.final.length then st
    else roundLoop top_k lists (round + 1) fuel (innerPass top_k round st lists)

/-- `_merge_search_results` (src/search_documents.py lines 45-83). -/
def merge_search_results (all_search_results : List (List SearchResult))
    (top_k : ℕ) : List SearchResult :=
  (roundLoop top_k all_search_results 0 top_k ⟨[], []⟩).final

/-! ### Multi-embedding search (`similarity_search`,
src/search_documents.py lines 174-217) -/

inductive SearchErr : Type
  /-- the `ValueError("Cannot search without embeddings")` raised when the
  query embedding list is empty -/
  | emptyQuery
deriving DecidableEq, Repr

/-- `similarity_search`: reject an empty list of query embeddings, search
the table once per query embedding, and merge the per-query ranked lists
round-robin.  Database connectivity failures are outside this pure model
of the table. -/
def similarity_search (query_embeddings : List Vec) (db : List DocRecord)
    (top_k : ℕ) : Except SearchErr (List SearchResult) :=
  if query_embeddings = [] then .error .emptyQuery
  else
    .ok (merge_search_results
      (query_embeddings.map (fun e => search_single_embedding e db top_k)) top_k)

-- sanity checks: the spec's round-robin merge example, and the cutoff case
example :
    merge_search_results
      [[⟨"a".toList, [], [], 9/10⟩, ⟨"b".toList, [], [], 1/2⟩],
       [⟨"a".toList, [], [], 19/20⟩, ⟨"c".toList, [], [], 3/5⟩]] 3 =
      [⟨"a".toList, [], [], 19/20⟩, ⟨"b".toList, [], [], 1/2⟩,
       ⟨"c".toList, [], [], 3/5⟩] := by
  norm_num +decide [merge_search_results, roundLoop, innerPass, processResult, findSeen]

example :
    merge_search_results
      [[⟨"a".toList, [], [], 1/2⟩], [⟨"a".toList, [], [], 9/10⟩]] 1 =
      [⟨"a".toList, [], [], 1/2⟩] := by
  norm_num +decide [merge_search_results, roundLoop, innerPass, processResult, findSeen]

example : ratSqrt 1 = 1 := by
  norm_num [ratSqrt, show Nat.sqrt 1 = 1 from by decide]

example : ratSqrt (9/4) = 3/2 := by
  have h9 : Nat.sqrt (Int.toNat 9) = 3 := by
    rw [show Int.toNat 9 = 3*3 by decide, Nat.sqrt_eq]
  have h4 : Nat.sqrt 4 = 2 := by rw [show (4:ℕ) = 2*2 by norm_num, Nat.sqrt_eq]
  norm_num [ratSqrt, h9, h4]

/-! ### Vector store (`_validate_data_for_indexing`, `store_chunks_to_db`,
src/index_documents.py lines 105-179) -/

inductive ValidationError : Type
  /-- `ValueError("Chunks list cannot be empty for indexing.")` -/
  | emptyChunks
  /-- `ValueError("Embeddings list cannot be empty for indexing.")` -/
  | emptyEmbeddings
  /-- `ValueError("Chunks count (...) doesn't match embeddings count (...)")` -/
  | countMismatch : ℕ → ℕ → ValidationError
  /-- `ValueError("Filename cannot be empty for indexing.")` -/
  | emptyFilename
deriving DecidableEq, Repr

/-- `_validate_data_for_indexing` (src/index_documents.py lines 105-124):
the four validation checks, in source order.  An `.error` value is the
`ValueError` the Python function raises. -/
def validate_data_for_indexing (chunks : List Str) (embeddings : List Vec)
    (filename : Str) : Except ValidationError Unit :=
  if chunks = [] then .error .emptyChunks
  else if embeddings = [] then .error .emptyEmbeddings
  else if chunks.length ≠ embeddings.length then
    .error (.countMismatch chunks.length embeddings.length)
  else if strip filename = [] then .error .emptyFilename
  else .ok ()

/-- Exceptions that could escape `store_chunks_to_db` to its caller.  The
Python function catches `ValueError` from validation and
`(DatabaseError, psycopg2.Error)` from the write, returning `False` in
both cases, so in this pure model of the table no constructor is ever
produced; the type records the exception surface of the function. -/
inductive StoreExn : Type
  | uncaught
deriving DecidableEq, Repr

/-- `store_chunks_to_db` (src/index_documents.py lines 127-179): validate
the inputs, returning `False` (with the table unchanged) when validation
raises; otherwise insert one row per (chunk, embedding) pair in a single
batch — each row stores the vector together with
`vector_norm(embedding)` — and return `True`.  The result pairs the Python
return value with the table after the call. -/
def store_chunks_to_db (chunks : List Str) (embeddings : List Vec)
    (filename : Str) (split_strategy : Str) (db : List DocRecord) :
    Except StoreExn (Bool × List DocRecord) :=
  match validate_data_for_indexing chunks embeddings filename with
  | .error _ => .ok (false, db)
  | .ok _ =>
    .ok (true, db ++ List.zipWith
      (fun c e => ⟨filename, c, split_strategy, e, ratSqrt (norm2 e)⟩)
      chunks embeddings)

/-! ### Indexing orchestrator (`process_document`,
src/index_documents.py lines 188-235) -/

/-- The pipeline steps of `process_document`, in their source order. -/
inductive Step : Type
  | delete
  | load
  | chunk
  | embed
  | store
deriving DecidableEq, Repr

/-- External collaborators of `process_document`:
`delete_document_data`'s boolean outcome, `load_document`'s outcome, and
the per-attempt/per-batch embedding-service oracle passed down to
`generate_embeddings`. -/
structure IndexDeps (ε : Type) : Type where
  deleteOk : Bool
  loadResult : Except Unit Str
  embedApi : ℕ → List Str → Except ε (List Vec)

/-- The strategy tag `"paragraph"` used by `store_chunks_to_db`'s caller. -/
def strategyParagraph : Str := "paragraph".toList

/-- `process_document` (src/index_documents.py lines 188-235): delete
existing records for the file (abort with `False` if that fails), load the
document, chunk it, embed the chunks, store chunks and embeddings; any
raised error is caught and turned into the return value `False`.  The
result records the Python return value, the table after the call, and the
ordered list of steps that were executed. -/
def process_document (d : IndexDeps ε) (file_path : Str)
    (db : List DocRecord) : Bool × List DocRecord × List Step :=
  if d.deleteOk = false then (false, db, [.delete])
  else
    let db1 := db.filter (fun r => !decide (r.filename = file_path))
    match d.loadResult with
    | .error _ => (false, db1, [.delete, .load])
    | .ok text =>
      match chunk_by_paragraphs text with
      | .error _ => (false, db1, [.delete, .load, .chunk])
      | .ok chunks =>
        match generate_embeddings d.embedApi chunks with
        | .error _ => (false, db1, [.delete, .load, .chunk, .embed])
        | .ok embeddings =>
          match store_chunks_to_db chunks embeddings file_path
              strategyParagraph db1 with
          | .ok (b, db2) => (b, db2, [.delete, .load, .chunk, .embed, .store])
          | .error _ => (false, db1, [.delete, .load, .chunk, .embed, .store])

/-! ### Auxiliary predicates used by the claims -/

/-- Consistency of the merge state: `seen` maps the chunk text of the
entry at each index of `final` to exactly that index, and every `seen`
entry points at an in-range index holding its key. -/
def MergeInv (st : MergeState) : Prop :=
  (∀ i (h : i < st.final.length),
      findSeen (st.final.get ⟨i, h⟩).chunk_text st.seen = some i)
  ∧ ∀ t i, findSeen t st.seen = some i →
      ∃ h : i < st.final.length, (st.final.get ⟨i, h⟩).chunk_text = t

/-- The chunking behaviour worded by claim C3 (for comparison with
`chunk_by_paragraphs`): split the text into lines, treat every line that
is empty or contains only whitespace as a paragraph break, collapse runs
of such blank lines, and return the stripped non-empty paragraphs in
source order. -/
def specChunkBlankWS (text : Str) : List Str :=
  ((((text.splitOn '\n').splitOnP (fun l => l.all isWS)).map
      (fun par => List.intercalate ['\n'] par)).map strip).filter
    (fun c => !c.isEmpty)

/-! ## Claim C6 — retry budget, backoff schedule, error wrapping -/

/-- C6: for every embedding batch call, at most 3 attempts are made in
total; a 1-second wait precedes the 2nd attempt and a 2-second wait
precedes the 3rd; an `EmbeddingGenerationError` wrapping the final
attempt's error is raised if and only if all 3 attempts fail; a success on
any attempt returns that attempt's result with no error. -/
theorem C6_embed_with_retry_budget_backoff_wrapping (call : ℕ → Except ε ν) :
    (embed_with_retry call 3).attemptsMade ≤ 3
    ∧ (∀ v, call 0 = .ok v → embed_with_retry call 3 = ⟨1, [], .ok v⟩)
    ∧ (∀ e0 v, call 0 = .error e0 → call 1 = .ok v →
        embed_with_retry call 3 = ⟨2, [1], .ok v⟩)
    ∧ (∀ e0 e1 v, call 0 = .error e0 → call 1 = .error e1 → call 2 = .ok v →
        embed_with_retry call 3 = ⟨3, [1, 2], .ok v⟩)
    ∧ (∀ e0 e1 e2, call 0 = .error e0 → call 1 = .error e1 →
        call 2 = .error e2 →
        embed_with_retry call 3 = ⟨3, [1, 2], .error (.generationFailed 3 e2)⟩)
    ∧ (∀ err, (embed_with_retry call 3).result = .error err →
        ∃ e0 e1 e2, call 0 = .error e0 ∧ call 1 = .error e1
          ∧ call 2 = .error e2 ∧ err = .generationFailed 3 e2) := by
  rcases h0 : call 0 with e0 | v0
  · rcases h1 : call 1 with e1 | v1
    · rcases h2 : call 2 with e2 | v2
      · refine ⟨?_, ?_, ?_, ?_, ?_, ?_⟩ <;>
          simp [embed_with_retry, retryGo, h0, h1, h2]
      · refine ⟨?_, ?_, ?_, ?_, ?_, ?_⟩ <;>
          simp [embed_with_retry, retryGo, h0, h1, h2]
    · refine ⟨?_, ?_, ?_, ?_, ?_, ?_⟩ <;>
        simp [embed_with_retry, retryGo, h0, h1]
  · refine ⟨?_, ?_, ?_, ?_, ?_, ?_⟩ <;> simp [embed_with_retry, retryGo, h0]

/-- Witness for C6: an oracle failing on attempts 0 and 1 and succeeding
on attempt 2 runs 3 attempts, waits 1s then 2s, and returns the success. -/
theorem C6_embed_with_retry_budget_backoff_wrapping_witness :
    (embed_with_retry (fun n => if n = 2 then .ok true else .error n) 3).attemptsMade ≤ 3
    ∧ embed_with_retry (fun n => if n = 2 then .ok true else .error n) 3 =
        ⟨3, [1, 2], .ok true⟩ := by
  have h := C6_embed_with_retry_budget_backoff_wrapping
    (fun n => if n = 2 then .ok true else .error n)
  exact ⟨h.1, h.2.2.2.1 0 1 true rfl rfl rfl⟩

/-! ## Claim C5 — embedding output length and order -/

/-- When every batch call succeeds and returns one vector per input string
in input order (oracle `fun a b => .ok (b.map f)`), the batching loop
returns the pointwise image of the whole input. -/
theorem embedBatches_map_of_ok (f : Str → Vec) :
    ∀ (n : ℕ) (cs : List Str), cs.length ≤ n →
      embedBatches (ε := ε) (fun _ b => .ok (b.map f)) cs = .ok (cs.map f) := by
  intro n
  induction n with
  | zero =>
    intro cs hcs
    have : cs = [] := List.eq_nil_of_length_eq_zero (Nat.le_zero.mp hcs)
    subst this
    simp [embedBatches]
  | succ n ih =>
    intro cs hcs
    by_cases hne : cs = []
    · subst hne; simp [embedBatches]
    · rw [embedBatches]
      have hdrop : (cs.drop 10).length ≤ n := by
        have : 0 < cs.length := List.length_pos.mpr hne
        simp only [List.length_drop]
        omega
      simp [hne, embed_with_retry, retryGo, ih _ hdrop,
        ← List.map_append, List.take_append_drop]

/-- C5: under the assumption that each remote batch call returns exactly
one vector per input string in input order, `generate_embeddings` returns
one vector per input chunk, in input order, for every non-empty chunk
list (including counts crossing the batch-size-10 boundary); the i-th
output is the vector of the i-th chunk, and the empty list fails with the
`ValueError` (InvalidInput). -/
theorem C5_generate_embeddings_length_order (f : Str → Vec) (chunks : List Str) :
    (chunks ≠ [] →
      generate_embeddings (ε := ε) (fun _ b => .ok (b.map f)) chunks = .ok (chunks.map f)
      ∧ (chunks.map f).length = chunks.length
      ∧ ∀ i : ℕ, (chunks.map f).get? i = (chunks.get? i).map f)
    ∧ generate_embeddings (ε := ε) (fun _ b => .ok (b.map f)) [] = .error .invalidInput := by
  constructor
  · intro hne
    refine ⟨?_, by simp, fun i => by simp [List.get?_map]⟩
    simp only [generate_embeddings, if_neg hne]
    exact embedBatches_map_of_ok f chunks.length chunks le_rfl
  · simp [generate_embeddings]

/-- Witness for C5: an 11-chunk input (crossing the batch-size-10
boundary) is embedded to 11 vectors in input order. -/
theorem C5_generate_embeddings_length_order_witness :
    ((List.range 11).map (fun n => List.replicate n 'x') ≠ [])
    ∧ generate_embeddings (ε := Unit)
        (fun _ b => .ok (b.map (fun s => [(s.length : ℚ)])))
        ((List.range 11).map (fun n => List.replicate n 'x')) =
      .ok (((List.range 11).map (fun n => List.replicate n 'x')).map
        (fun s => [(s.length : ℚ)])) := by
  refine ⟨by decide, ?_⟩
  exact ((C5_generate_embeddings_length_order
    (fun s => [(s.length : ℚ)])
    ((List.range 11).map (fun n => List.replicate n 'x'))).1 (by decide)).1

/-! ## Claim C2 — bulk-insert validation -/

/-- Counterexample to C2 as stated: on invalid input (here one chunk and
zero vectors) `store_chunks_to_db` does not raise the validation error to
its caller — it catches the `ValueError` internally and returns `False`
(with the table unchanged); no `.error` outcome is produced. -/
theorem C2_store_chunks_validation_counterexample :
    store_chunks_to_db [['a']] [] "doc.pdf".toList strategyParagraph [] =
      .ok (false, [])
    ∧ ∀ exn, store_chunks_to_db [['a']] [] "doc.pdf".toList strategyParagraph []
        ≠ .error exn := by
  constructor
  · decide
  · intro exn h
    have h2 : store_chunks_to_db [['a']] [] "doc.pdf".toList strategyParagraph []
        = .ok (false, []) := by decide
    rw [h] at h2
    exact Except.noConfusion h2

/-- C2 (amended): for every call to `store_chunks_to_db` where the chunk
count does not equal the vector count, or either sequence is empty, or the
source identifier is empty or whitespace, the internal validation raises a
`ValidationError`, the operation catches it and reports failure by
returning `False` to the caller (no exception escapes), and no records are
written. -/
theorem C2_store_chunks_validation_amended (chunks : List Str)
    (embeddings : List Vec) (filename split_strategy : Str)
    (db : List DocRecord)
    (hbad : chunks = [] ∨ embeddings = [] ∨ chunks.length ≠ embeddings.length
      ∨ strip filename = []) :
    (∃ verr, validate_data_for_indexing chunks embeddings filename = .error verr)
    ∧ store_chunks_to_db chunks embeddings filename split_strategy db =
        .ok (false, db) := by
  have hv : ∃ verr, validate_data_for_indexing chunks embeddings filename
      = .error verr := by
    unfold validate_data_for_indexing
    rcases hbad with h | h | h | h <;> split_ifs <;>
      first
        | exact ⟨_, rfl⟩
        | simp_all
  obtain ⟨verr, hverr⟩ := hv
  refine ⟨⟨verr, hverr⟩, ?_⟩
  simp [store_chunks_to_db, hverr]

/-- Witness for C2 (amended): a one-chunk, zero-vector call returns
`False` and leaves the (empty) table unchanged. -/
theorem C2_store_chunks_validation_amended_witness :
    (∃ verr, validate_data_for_indexing [['a']] [] "doc.pdf".toList = .error verr)
    ∧ store_chunks_to_db [['a']] [] "doc.pdf".toList strategyParagraph [] =
        .ok (false, []) :=
  C2_store_chunks_validation_amended [['a']] [] "doc.pdf".toList
    strategyParagraph [] (Or.inr (Or.inl rfl))

/-! ## Claim C9 — orchestrator step order and short-circuiting -/

/-- C9: `process_document` runs delete, load, chunk, embed, store strictly
in that order: the executed-step trace is always a prefix of the full
pipeline; a failed delete returns `False` immediately with no later step;
each later step's failure returns `False` with no remaining step executed;
and the store step runs only after every earlier step succeeded. -/
theorem C9_process_document_order_short_circuit (d : IndexDeps ε)
    (file_path : Str) (db : List DocRecord) :
    (process_document d file_path db).2.2 <+:
        [Step.delete, Step.load, Step.chunk, Step.embed, Step.store]
    ∧ (d.deleteOk = false →
        process_document d file_path db = (false, db, [Step.delete]))
    ∧ (∀ e, d.deleteOk = true → d.loadResult = .error e →
        process_document d file_path db =
          (false, db.filter (fun r => !decide (r.filename = file_path)),
            [Step.delete, Step.load]))
    ∧ (∀ text ce, d.deleteOk = true → d.loadResult = .ok text →
        chunk_by_paragraphs text = .error ce →
        process_document d file_path db =
          (false, db.filter (fun r => !decide (r.filename = file_path)),
            [Step.delete, Step.load, Step.chunk]))
    ∧ (∀ text chunks ee, d.deleteOk = true → d.loadResult = .ok text →
        chunk_by_paragraphs text = .ok chunks →
        generate_embeddings d.embedApi chunks = .error ee →
        process_document d file_path db =
          (false, db.filter (fun r => !decide (r.filename = file_path)),
            [Step.delete, Step.load, Step.chunk, Step.embed]))
    ∧ (Step.store ∈ (process_document d file_path db).2.2 →
        d.deleteOk = true
        ∧ ∃ text chunks embeddings, d.loadResult = .ok text
            ∧ chunk_by_paragraphs text = .ok chunks
            ∧ generate_embeddings d.embedApi chunks = .ok embeddings) := by
  rcases hdel : d.deleteOk with _ | _
  · refine ⟨?_, ?_, ?_, ?_, ?_, ?_⟩ <;> simp [process_document, hdel]
  · rcases hload : d.loadResult with e | text
    · refine ⟨?_, ?_, ?_, ?_, ?_, ?_⟩ <;> simp [process_document, hdel, hload]
    · rcases hchunk : chunk_by_paragraphs text with ce | chunks
      · refine ⟨?_, ?_, ?_, ?_, ?_, ?_⟩ <;>
          simp [process_document, hdel, hload, hchunk] <;>
          (intros; simp_all)
      · rcases hemb : generate_embeddings d.embedApi chunks with ee | embeddings
        · refine ⟨?_, ?_, ?_, ?_, ?_, ?_⟩ <;>
            simp [process_document, hdel, hload, hchunk, hemb] <;>
            (intros; simp_all)
        · rcases hstore : store_chunks_to_db chunks embeddings file_path
              strategyParagraph
              (db.filter (fun r => !decide (r.filename = file_path))) with
            exn | bdb
          · refine ⟨?_, ?_, ?_, ?_, ?_, ?_⟩ <;>
              simp [process_document, hdel, hload, hchunk, hemb, hstore] <;>
              first
                | exact ⟨text, rfl, chunks, hchunk, embeddings, hemb⟩
                | (intros; simp_all)
          · refine ⟨?_, ?_, ?_, ?_, ?_, ?_⟩ <;>
              simp [process_document, hdel, hload, hchunk, hemb, hstore] <;>
              first
                | exact ⟨text, rfl, chunks, hchunk, embeddings, hemb⟩
                | (intros; simp_all)

/-- Witness for C9: with a failing delete step, `process_document` returns
`False` having executed only the delete step. -/
theorem C9_process_document_order_short_circuit_witness :
    process_document (ε := Unit)
        ⟨false, .error (), fun _ b => .ok (b.map (fun _ => []))⟩ [] [] =
      (false, [], [Step.delete]) :=
  (C9_process_document_order_short_circuit
    ⟨false, .error (), fun _ b => .ok (b.map (fun _ => []))⟩ [] []).2.1 rfl

/-! ## Claim C10 — merge output: bounded length, unique chunk texts -/

/-- The empty merge state satisfies the invariant. -/
theorem mergeInv_init : MergeInv ⟨[], []⟩ := by
  constructor
  · intro i h
    simp at h
  · intro t i h
    simp [findSeen] at h

/-- One merge-loop body step preserves the state invariant. -/
theorem processResult_inv {st : MergeState} (hst : MergeInv st)
    (r : SearchResult) : MergeInv (processResult st r) := by
  obtain ⟨h1, h2⟩ := hst
  rcases hfind : findSeen r.chunk_text st.seen with _ | i
  · -- unseen text: append and record the new index
    have heq : processResult st r =
        ⟨st.final ++ [r], (r.chunk_text, st.final.length) :: st.seen⟩ := by
      simp [processResult, hfind]
    rw [heq]
    constructor
    · intro i hi
      have hi' : i < st.final.length + 1 := by simpa using hi
      rcases Nat.lt_or_ge i st.final.length with hlt | hge
      · have hget : (st.final ++ [r]).get ⟨i, hi⟩ = st.final.get ⟨i, hlt⟩ :=
          List.get_append i hlt
        rw [hget]
        have hne : r.chunk_text ≠ (st.final.get ⟨i, hlt⟩).chunk_text := by
          intro hcontra
          rw [hcontra, h1 i hlt] at hfind
          exact Option.noConfusion hfind
        simp only [findSeen]
        rw [if_neg hne]
        exact h1 i hlt
      · have hieq : i = st.final.length := by omega
        subst hieq
        have hget : (st.final ++ [r]).get ⟨st.final.length, hi⟩ = r := by
          simp
        rw [hget]
        simp [findSeen]
    · intro t i hti
      simp only [findSeen] at hti
      by_cases hrt : r.chunk_text = t
      · rw [if_pos hrt] at hti
        have hieq : i = st.final.length := by simpa using hti.symm
        subst hieq
        refine ⟨by simp, ?_⟩
        have hget : (st.final ++ [r]).get
            ⟨st.final.length, by simp⟩ = r := by simp
        rw [hget]
        exact hrt.symm ▸ rfl
      · rw [if_neg hrt] at hti
        obtain ⟨hlt, htext⟩ := h2 t i hti
        refine ⟨by simp; omega, ?_⟩
        rw [List.get_append i hlt]
        exact htext
  · -- seen text: possibly replace in place, state shape unchanged otherwise
    rcases hget : st.final[i]? with _ | old
    · have heq : processResult st r = st := by
        simp [processResult, hfind, hget]
      rw [heq]
      exact ⟨h1, h2⟩
    · by_cases hlt : old.similarity_score < r.similarity_score
      · have heq : processResult st r = ⟨st.final.set i r, st.seen⟩ := by
          simp [processResult, hfind, hget, hlt]
        rw [heq]
        obtain ⟨hi, htext⟩ := h2 r.chunk_text i hfind
        constructor
        · intro j hj
          have hj' : j < st.final.length := by simpa using hj
          by_cases hji : j = i
          · subst hji
            have hgetj : (st.final.set j r).get ⟨j, hj⟩ = r := by
              simp [List.get_set_eq]
            rw [hgetj, hfind]
          · have hgetj : (st.final.set i r).get ⟨j, hj⟩ =
                st.final.get ⟨j, hj'⟩ := by
              simp [List.getElem_set_of_ne (fun h => hji h.symm)]
            rw [hgetj]
            exact h1 j hj'
        · intro t j htj
          obtain ⟨hjlen, htextj⟩ := h2 t j htj
          refine ⟨by simpa using hjlen, ?_⟩
          by_cases hji : j = i
          · subst hji
            have hteq : t = r.chunk_text := by rw [← htext, ← htextj]
            have hgetj : (st.final.set j r).get
                ⟨j, by simpa using hjlen⟩ = r := by
              simp [List.get_set_eq]
            rw [hgetj, hteq]
          · have hgetj : (st.final.set i r).get
                ⟨j, by simpa using hjlen⟩ = st.final.get ⟨j, hjlen⟩ := by
              simp [List.getElem_set_of_ne (fun h => hji h.symm)]
            rw [hgetj]
            exact htextj
      · have heq : processResult st r = st := by
          simp [processResult, hfind, hget, hlt]
        rw [heq]
        exact ⟨h1, h2⟩

/-- A merge-loop body step grows the result list by at most one entry. -/
theorem processResult_length_le (st : MergeState) (r : SearchResult) :
    (processResult st r).final.length ≤ st.final.length + 1 := by
  unfold processResult
  rcases hfind : findSeen r.chunk_text st.seen with _ | i
  · simp
  · rcases hget : st.final[i]? with _ | old
    · simp [hget]
    · by_cases hlt : old.similarity_score < r.similarity_score <;>
        simp [hget, hlt]

/-- The inner round-robin pass preserves the invariant and the `top_k`
bound on the result length. -/
theorem innerPass_inv_length (top_k round : ℕ) :
    ∀ (ls : List (List SearchResult)) (st : MergeState), MergeInv st →
      st.final.length ≤ top_k →
      MergeInv (innerPass top_k round st ls)
      ∧ (innerPass top_k round st ls).final.length ≤ top_k := by
  intro ls
  induction ls with
  | nil => intro st hst hlen; exact ⟨hst, hlen⟩
  | cons l ls ih =>
    intro st hst hlen
    rw [innerPass]
    by_cases hbrk : top_k ≤ st.final.length
    · rw [if_pos hbrk]
      exact ⟨hst, hlen⟩
    · rw [if_neg hbrk]
      rcases hget : l.get? round with _ | r
      · exact ih st hst hlen
      · refine ih (processResult st r) (processResult_inv hst r) ?_
        have := processResult_length_le st r
        omega

/-- The outer round loop preserves the invariant and the `top_k` bound. -/
theorem roundLoop_inv_length (top_k : ℕ) (lists : List (List SearchResult)) :
    ∀ (fuel round : ℕ) (st : MergeState), MergeInv st →
      st.final.length ≤ top_k →
      MergeInv (roundLoop top_k lists round fuel st)
      ∧ (roundLoop top_k lists round fuel st).final.length ≤ top_k := by
  intro fuel
  induction fuel with
  | zero => intro round st hst hlen; exact ⟨hst, hlen⟩
  | succ fuel ih =>
    intro round st hst hlen
    rw [roundLoop]
    by_cases hbrk : top_k ≤ st.final.length
    · rw [if_pos hbrk]
      exact ⟨hst, hlen⟩
    · rw [if_neg hbrk]
      obtain ⟨hst', hlen'⟩ :=
        innerPass_inv_length top_k round lists st hst hlen
      exact ih (round + 1) _ hst' hlen'

/-- The final merge state satisfies the invariant and the length bound. -/
theorem merge_state_inv (lists : List (List SearchResult)) (top_k : ℕ) :
    MergeInv (roundLoop top_k lists 0 top_k ⟨[], []⟩)
    ∧ (merge_search_results lists top_k).length ≤ top_k := by
  have h := roundLoop_inv_length top_k lists top_k 0 ⟨[], []⟩ mergeInv_init
    (by simp)
  exact ⟨h.1, h.2⟩

/-- The invariant forces the chunk texts of the result list to be
pairwise distinct. -/
theorem mergeInv_nodup {st : MergeState} (hst : MergeInv st) :
    (st.final.map (fun r => r.chunk_text)).Nodup := by
  rw [List.nodup_iff_injective_get]
  intro ⟨i, hi⟩ ⟨j, hj⟩ hij
  simp only [List.get_map] at hij
  have hi' : i < st.final.length := by simpa using hi
  have hj' : j < st.final.length := by simpa using hj
  have h1 := hst.1 i hi'
  have h2 := hst.1 j hj'
  have : (st.final.get ⟨i, hi'⟩).chunk_text =
      (st.final.get ⟨j, hj'⟩).chunk_text := by
    simpa using hij
  rw [this, h2] at h1
  simpa using (Option.some_inj.mp h1).symm

/-- C10: for every list of per-query result lists and every `top_k`, the
output of `_merge_search_results` has length at most `top_k` and contains
no two results with the same chunk text. -/
theorem C10_merge_bounded_unique (lists : List (List SearchResult))
    (top_k : ℕ) :
    (merge_search_results lists top_k).length ≤ top_k
    ∧ ((merge_search_results lists top_k).map
        (fun r => r.chunk_text)).Nodup := by
  obtain ⟨hinv, hlen⟩ := merge_state_inv lists top_k
  exact ⟨hlen, mergeInv_nodup hinv⟩

/-! ## Claim C7 — zero-norm query and degenerate-record safety -/

/-- A sum of squares of rationals is nonnegative. -/
theorem norm2_nonneg (v : Vec) : 0 ≤ norm2 v := by
  unfold norm2
  apply List.sum_nonneg
  intro x hx
  obtain ⟨y, _, rfl⟩ := List.mem_map.mp hx
  exact mul_self_nonneg y

/-- `ratSqrt` is nonnegative. -/
theorem ratSqrt_nonneg (q : ℚ) : 0 ≤ ratSqrt q := by
  unfold ratSqrt
  positivity

/-- `ratSqrt` vanishes exactly on `0` among the nonnegative rationals —
the only property of the square root that the search guard relies on. -/
theorem ratSqrt_eq_zero_iff {q : ℚ} (hq : 0 ≤ q) : ratSqrt q = 0 ↔ q = 0 := by
  constructor
  · intro h
    by_contra hne
    have hpos : 0 < q := lt_of_le_of_ne hq (Ne.symm hne)
    have hnum : 0 < q.num := Rat.num_pos.mpr hpos
    have h1 : 0 < Nat.sqrt q.num.toNat := by
      rw [Nat.sqrt_pos]
      omega
    have h2 : 0 < Nat.sqrt q.den := by
      rw [Nat.sqrt_pos]
      exact q.den_pos
    have : 0 < ratSqrt q := by
      unfold ratSqrt
      have c1 : (0 : ℚ) < (Nat.sqrt q.num.toNat : ℚ) := by exact_mod_cast h1
      have c2 : (0 : ℚ) < (Nat.sqrt q.den : ℚ) := by exact_mod_cast h2
      exact div_pos c1 c2
    rw [h] at this
    exact lt_irrefl 0 this
  · intro h
    subst h
    unfold ratSqrt
    norm_num

/-- C7: a query vector with zero Euclidean norm yields zero results (no
error, no division); and every returned result originates from a stored
record with positive norm, scored with a strictly positive divisor
`embedding_norm * query_norm` — records with norm ≤ 0 never enter the
scoring. -/
theorem C7_zero_norm_and_degenerate_record_safety (q : Vec)
    (db : List DocRecord) (top_k : ℕ) :
    (norm2 q = 0 → search_single_embedding q db top_k = [])
    ∧ ∀ res ∈ search_single_embedding q db top_k,
        ∃ r ∈ db, 0 < r.embedding_norm
          ∧ 0 < ratSqrt (norm2 q)
          ∧ 0 < r.embedding_norm * ratSqrt (norm2 q)
          ∧ res = ⟨r.chunk_text, r.filename, r.split_strategy,
              dot_product r.embedding q /
                (r.embedding_norm * ratSqrt (norm2 q))⟩ := by
  constructor
  · intro h0
    unfold search_single_embedding
    rw [if_pos ((ratSqrt_eq_zero_iff (norm2_nonneg q)).mpr h0)]
  · intro res hres
    unfold search_single_embedding at hres
    by_cases hz : ratSqrt (norm2 q) = 0
    · rw [if_pos hz] at hres
      exact absurd hres (List.not_mem_nil res)
    · rw [if_neg hz] at hres
      have hqpos : 0 < ratSqrt (norm2 q) :=
        lt_of_le_of_ne (ratSqrt_nonneg _) (Ne.symm hz)
      have hres2 := List.mem_insertionSort scoreGE |>.mp
        (List.mem_of_mem_take hres)
      obtain ⟨r, hrmem, hreq⟩ := List.mem_map.mp hres2
      have hrdb := List.mem_filter.mp hrmem
      have hrpos : 0 < r.embedding_norm := by
        have := hrdb.2
        simpa using this
      exact ⟨r, hrdb.1, hrpos, hqpos, mul_pos hrpos hqpos, hreq.symm⟩

/-- Witness for C7: the all-zero two-dimensional query returns no results
against a non-empty table. -/
theorem C7_zero_norm_and_degenerate_record_safety_witness :
    norm2 [0, 0] = 0
    ∧ search_single_embedding [0, 0]
        [⟨"f".toList, "t".toList, "p".toList, [1, 0], 1⟩] 5 = [] := by
  have h0 : norm2 [0, 0] = 0 := by norm_num [norm2]
  exact ⟨h0, (C7_zero_norm_and_degenerate_record_safety [0, 0]
    [⟨"f".toList, "t".toList, "p".toList, [1, 0], 1⟩] 5).1 h0⟩

/-! ## Claim C1 — shape and ordering of `similarity_search` results -/

/-- The inner pass over a single result list examines just that list's
entry at the round index. -/
theorem innerPass_single (top_k round : ℕ) (st : MergeState)
    (l : List SearchResult) :
    innerPass top_k round st [l] =
      if top_k ≤ st.final.length then st
      else
        match l[round]? with
        | none => st
        | some r => processResult st r := by
  by_cases hbrk : top_k ≤ st.final.length
  · simp [innerPass, hbrk]
  · rcases hget : l[round]? with _ | r <;>
      simp [innerPass, hbrk, hget]

/-- Processing the entry at the round index of a descending-sorted list
keeps the accumulated results a sublist of the processed prefix: a
duplicate coming later in a sorted list never has a strictly higher score,
so no in-place replacement happens. -/
theorem processResult_sorted_sublist {l : List SearchResult}
    (hl : l.Sorted scoreGE) {st : MergeState} {round : ℕ}
    (hround : round < l.length) (hst : MergeInv st)
    (hsub : List.Sublist st.final (l.take round)) :
    List.Sublist (processResult st (l.get ⟨round, hround⟩)).final
      (l.take (round + 1)) := by
  have htake : l.take (round + 1) = l.take round ++ [l.get ⟨round, hround⟩] := by
    rw [List.take_succ]
    simp [List.getElem?_eq_getElem hround]
  set r := l.get ⟨round, hround⟩ with hr
  rcases hfind : findSeen r.chunk_text st.seen with _ | i
  · have heq : processResult st r =
        ⟨st.final ++ [r], (r.chunk_text, st.final.length) :: st.seen⟩ := by
      simp [processResult, hfind]
    rw [heq, htake]
    exact hsub.append (List.Sublist.refl _)
  · obtain ⟨hi, htext⟩ := hst.2 r.chunk_text i hfind
    have hmem : st.final.get ⟨i, hi⟩ ∈ l.take round :=
      hsub.mem (List.get_mem st.final i hi)
    rw [List.mem_take_iff_getElem] at hmem
    obtain ⟨j, hj, hjeq⟩ := hmem
    have hjlt : j < round := by
      simp at hj
      omega
    have hjlen : j < l.length := by omega
    have hrel : scoreGE (l.get ⟨j, hjlen⟩) r :=
      List.pairwise_iff_get.mp hl ⟨j, hjlen⟩ ⟨round, hround⟩ hjlt
    have holdscore : ¬ st.final[i].similarity_score <
        r.similarity_score := by
      have heq2 : st.final[i] = l.get ⟨j, hjlen⟩ := by
        simpa using hjeq.symm
      rw [heq2]
      exact not_lt.mpr hrel
    have heq : processResult st r = st := by
      simp [processResult, hfind, List.getElem?_eq_getElem hi, holdscore]
    rw [heq, htake]
    exact hsub.trans (List.sublist_append_left _ _)

/-- Over a single descending-sorted result list the whole merge loop keeps
the accumulated results a sublist of that list. -/
theorem roundLoop_single_sublist (k : ℕ) {l : List SearchResult}
    (hl : l.Sorted scoreGE) :
    ∀ (fuel round : ℕ) (st : MergeState), MergeInv st →
      List.Sublist st.final (l.take round) →
      List.Sublist (roundLoop k [l] round fuel st).final l := by
  intro fuel
  induction fuel with
  | zero =>
    intro round st _ hsub
    exact hsub.trans (List.take_sublist round l)
  | succ fuel ih =>
    intro round st hst hsub
    rw [roundLoop]
    by_cases hbrk : k ≤ st.final.length
    · rw [if_pos hbrk]
      exact hsub.trans (List.take_sublist round l)
    · rw [if_neg hbrk, innerPass_single]
      rw [if_neg hbrk]
      rcases hget : l[round]? with _ | r
      · refine ih (round + 1) st hst (hsub.trans ?_)
        rw [List.take_succ]
        exact List.sublist_append_left _ _
      · have hround : round < l.length := by
          by_contra hge
          rw [List.getElem?_eq_none (by omega)] at hget
          exact Option.noConfusion hget
        have hreq : r = l.get ⟨round, hround⟩ := by
          rw [List.getElem?_eq_getElem hround] at hget
          simpa using (Option.some_inj.mp hget).symm
        subst hreq
        exact ih (round + 1) _ (processResult_inv hst _)
          (processResult_sorted_sublist hl hround hst hsub)

/-- Merging a single descending-sorted per-query list yields a
descending-sorted output. -/
theorem merge_single_sorted {l : List SearchResult}
    (hl : l.Sorted scoreGE) (k : ℕ) :
    (merge_search_results [l] k).Sorted scoreGE :=
  hl.sublist
    (roundLoop_single_sublist k hl k 0 ⟨[], []⟩ mergeInv_init (by simp))

/-- The per-query search output is sorted descending by similarity score
(the `ORDER BY similarity_score DESC` clause followed by `take`). -/
theorem search_single_embedding_sorted (q : Vec) (db : List DocRecord)
    (top_k : ℕ) :
    (search_single_embedding q db top_k).Sorted scoreGE := by
  unfold search_single_embedding
  by_cases hz : ratSqrt (norm2 q) = 0
  · rw [if_pos hz]
    exact List.sorted_nil
  · rw [if_neg hz]
    exact (List.sorted_insertionSort scoreGE _).sublist
      (List.take_sublist _ _)

/-- Counterexample to C1 as stated: with two query vectors the merged
output of `similarity_search` is not sorted in descending order of
similarity score — the round-robin merge takes the head of the first
query's list (score 1/2) before the head of the second query's list
(score 1). -/
theorem C1_similarity_search_sorted_counterexample :
    similarity_search [[1, 0], [0, 1]]
        [⟨"f".toList, "a".toList, "p".toList, [1/2, 0], 1⟩,
         ⟨"f".toList, "b".toList, "p".toList, [0, 1], 1⟩] 2 =
      .ok [⟨"a".toList, "f".toList, "p".toList, 1/2⟩,
           ⟨"b".toList, "f".toList, "p".toList, 1⟩]
    ∧ ¬ List.Sorted scoreGE
        [(⟨"a".toList, "f".toList, "p".toList, 1/2⟩ : SearchResult),
         ⟨"b".toList, "f".toList, "p".toList, 1⟩] := by
  constructor
  · have h1 : Nat.sqrt 1 = 1 := by decide
    norm_num +decide [similarity_search, search_single_embedding,
      merge_search_results, roundLoop, innerPass, processResult, findSeen,
      ratSqrt, norm2, dot_product, List.insertionSort, List.orderedInsert,
      scoreGE, h1]
  · intro h
    have := List.rel_of_sorted_cons h
      ⟨"b".toList, "f".toList, "p".toList, 1⟩ (by simp)
    norm_num [scoreGE] at this

/-- C1 (amended): for every non-empty sequence of query vectors,
`similarity_search` succeeds and returns at most `top_k` results; each
per-query list is sorted descending and, when there is a single query
vector, so is the returned sequence — but with several query vectors the
round-robin merge preserves round-robin order, not global score order. -/
theorem C1_similarity_search_amended (qs : List Vec) (db : List DocRecord)
    (top_k : ℕ) (hne : qs ≠ []) :
    ∃ res, similarity_search qs db top_k = .ok res
      ∧ res.length ≤ top_k
      ∧ (∀ q, q ∈ qs →
          (search_single_embedding q db top_k).Sorted scoreGE)
      ∧ (∀ q, qs = [q] → res.Sorted scoreGE) := by
  refine ⟨merge_search_results
      (qs.map (fun e => search_single_embedding e db top_k)) top_k,
    ?_, ?_, ?_, ?_⟩
  · simp [similarity_search, hne]
  · exact (merge_state_inv _ top_k).2
  · intro q _
    exact search_single_embedding_sorted q db top_k
  · intro q hq
    subst hq
    simpa using merge_single_sorted
      (search_single_embedding_sorted q db top_k) top_k

/-- Witness for C1 (amended): a single unit-vector query against a
one-record table. -/
theorem C1_similarity_search_amended_witness :
    ∃ res, similarity_search [[1, 0]]
        [⟨"f".toList, "t".toList, "p".toList, [1, 0], 1⟩] 5 = .ok res
      ∧ res.length ≤ 5
      ∧ (∀ q : Vec, q ∈ [[1, 0]] →
          (search_single_embedding q
            [⟨"f".toList, "t".toList, "p".toList, [1, 0], 1⟩] 5).Sorted scoreGE)
      ∧ (∀ q : Vec, [[1, 0]] = [q] → res.Sorted scoreGE) := by
  exact C1_similarity_search_amended [[1, 0]]
    [⟨"f".toList, "t".toList, "p".toList, [1, 0], 1⟩] 5 (by decide)

/-! ## Claim C4 — duplicate handling in the cross-query merge -/

/-- Folding the merge body over any result sequence preserves the state
invariant. -/
theorem mergeFold_inv :
    ∀ (rs : List SearchResult) (st : MergeState), MergeInv st →
      MergeInv (rs.foldl processResult st) := by
  intro rs
  induction rs with
  | nil => intro st hst; exact hst
  | cons r rs ih => intro st hst; exact ih _ (processResult_inv hst r)

/-- Folding the merge body over a result sequence from the empty state
produces, for each chunk text present in the sequence, exactly one entry,
carrying the maximal similarity score among all occurrences of that text;
every entry originates from the sequence. -/
theorem mergeFold_max (rs : List SearchResult) :
    (∀ res ∈ (rs.foldl processResult ⟨[], []⟩).final,
        res ∈ rs ∧ ∀ r' ∈ rs, r'.chunk_text = res.chunk_text →
          r'.similarity_score ≤ res.similarity_score)
    ∧ ∀ r ∈ rs, ∃ res ∈ (rs.foldl processResult ⟨[], []⟩).final,
        res.chunk_text = r.chunk_text := by
  induction rs using List.reverseRecOn with
  | nil =>
    constructor
    · intro res hres
      simp [List.foldl] at hres
    · intro r hr
      simp at hr
  | append_singleton rs r ih =>
    have hinv : MergeInv (rs.foldl processResult ⟨[], []⟩) :=
      mergeFold_inv rs ⟨[], []⟩ mergeInv_init
    obtain ⟨ihmax, ihcov⟩ := ih
    rw [List.foldl_append]
    set st := rs.foldl processResult ⟨[], []⟩ with hst
    simp only [List.foldl_cons, List.foldl_nil]
    rcases hfind : findSeen r.chunk_text st.seen with _ | i
    · -- new text: appended at the end
      have heq : processResult st r =
          ⟨st.final ++ [r], (r.chunk_text, st.final.length) :: st.seen⟩ := by
        simp [processResult, hfind]
      rw [heq]
      constructor
      · intro res hres
        rcases List.mem_append.mp hres with hin | hin
        · have hrne : r.chunk_text ≠ res.chunk_text := by
            intro hc
            obtain ⟨⟨j, hj⟩, hjeq⟩ := List.mem_iff_get.mp hin
            have hfj := hinv.1 j hj
            rw [hjeq] at hfj
            rw [hc, hfj] at hfind
            exact Option.noConfusion hfind
          obtain ⟨hmem, hmax⟩ := ihmax res hin
          refine ⟨List.mem_append_left _ hmem, ?_⟩
          intro r' hr' htext'
          rcases List.mem_append.mp hr' with h' | h'
          · exact hmax r' h' htext'
          · rw [List.mem_singleton.mp h'] at htext'
            exact absurd htext' hrne
        · rw [List.mem_singleton.mp hin]
          refine ⟨List.mem_append_right _ (by simp), ?_⟩
          intro r' hr' htext'
          rcases List.mem_append.mp hr' with h' | h'
          · exfalso
            obtain ⟨res', hres', htext''⟩ := ihcov r' h'
            obtain ⟨⟨j, hj⟩, hjeq⟩ := List.mem_iff_get.mp hres'
            have hfj := hinv.1 j hj
            rw [hjeq, htext'', htext'] at hfj
            rw [hfj] at hfind
            exact Option.noConfusion hfind
          · rw [List.mem_singleton.mp h']
      · intro r'' hr''
        rcases List.mem_append.mp hr'' with h'' | h''
        · obtain ⟨res', hres', ht⟩ := ihcov r'' h''
          exact ⟨res', List.mem_append_left _ hres', ht⟩
        · exact ⟨r, List.mem_append_right _ (by simp),
            by rw [List.mem_singleton.mp h'']⟩
    · -- seen text at index i
      obtain ⟨hi, htext⟩ := hinv.2 r.chunk_text i hfind
      have hgetsome : st.final[i]? = some (st.final.get ⟨i, hi⟩) := by
        simp [List.getElem?_eq_getElem hi]
      by_cases hscore :
          st.final[i].similarity_score < r.similarity_score
      · -- strictly better duplicate: replace in place
        have heq : processResult st r = ⟨st.final.set i r, st.seen⟩ := by
          simp [processResult, hfind, hgetsome, hscore]
        rw [heq]
        constructor
        · intro res hres
          obtain ⟨⟨j, hj⟩, hjeq⟩ := List.mem_iff_get.mp hres
          have hjlen : j < st.final.length := by simpa using hj
          by_cases hji : j = i
          · subst hji
            have hresr : res = r := by
              rw [← hjeq]
              simp
            subst hresr
            refine ⟨List.mem_append_right _ (by simp), ?_⟩
            intro r' hr' htext'
            rcases List.mem_append.mp hr' with h' | h'
            · have hold := (ihmax (st.final.get ⟨j, hjlen⟩)
                (List.get_mem st.final j hjlen)).2 r' h'
                (htext'.trans htext.symm)
              exact hold.trans (le_of_lt hscore)
            · rw [List.mem_singleton.mp h']
          · have hresold : res = st.final.get ⟨j, hjlen⟩ := by
              rw [← hjeq]
              simp [List.getElem_set_of_ne (fun h => hji h.symm)]
            have hmemst : res ∈ st.final := by
              rw [hresold]
              exact List.get_mem st.final j hjlen
            have htextne : res.chunk_text ≠ r.chunk_text := by
              intro hc
              have hfj := hinv.1 j hjlen
              rw [← hresold, hc, hfind] at hfj
              exact hji (Option.some_inj.mp hfj).symm
            obtain ⟨hmem, hmax⟩ := ihmax res hmemst
            refine ⟨List.mem_append_left _ hmem, ?_⟩
            intro r' hr' htext'
            rcases List.mem_append.mp hr' with h' | h'
            · exact hmax r' h' htext'
            · rw [List.mem_singleton.mp h'] at htext'
              exact absurd htext'.symm htextne
        · intro r'' hr''
          have hilen : i < (st.final.set i r).length := by simpa using hi
          have hrmem : r ∈ st.final.set i r :=
            List.mem_iff_get.mpr ⟨⟨i, hilen⟩, by simp⟩
          rcases List.mem_append.mp hr'' with h'' | h''
          · obtain ⟨res', hres', ht⟩ := ihcov r'' h''
            obtain ⟨⟨j, hj⟩, hjeq⟩ := List.mem_iff_get.mp hres'
            by_cases hji : j = i
            · subst hji
              refine ⟨r, hrmem, ?_⟩
              have h1 : r.chunk_text = res'.chunk_text := by
                rw [← hjeq]
                exact htext.symm
              exact h1.trans ht
            · have hjlen2 : j < (st.final.set i r).length := by simpa using hj
              refine ⟨res', List.mem_iff_get.mpr ⟨⟨j, hjlen2⟩, ?_⟩, ht⟩
              rw [← hjeq]
              simp [List.getElem_set_of_ne (fun h => hji h.symm)]
          · exact ⟨r, hrmem, by rw [List.mem_singleton.mp h'']⟩
      · -- duplicate not better: state unchanged
        have heq : processResult st r = st := by
          simp [processResult, hfind, hgetsome, hscore]
        rw [heq]
        constructor
        · intro res hres
          obtain ⟨hmem, hmax⟩ := ihmax res hres
          refine ⟨List.mem_append_left _ hmem, ?_⟩
          intro r' hr' htext'
          rcases List.mem_append.mp hr' with h' | h'
          · exact hmax r' h' htext'
          · rw [List.mem_singleton.mp h'] at htext' ⊢
            obtain ⟨⟨j, hj⟩, hjeq⟩ := List.mem_iff_get.mp hres
            have hfj := hinv.1 j hj
            rw [hjeq] at hfj
            rw [← htext'] at hfj
            rw [hfj] at hfind
            have hij : j = i := Option.some_inj.mp hfind
            have hresold : res = st.final.get ⟨i, hi⟩ := by
              rw [← hjeq]
              congr 1
              simpa using hij
            rw [hresold]
            exact not_lt.mp hscore
        · intro r'' hr''
          rcases List.mem_append.mp hr'' with h'' | h''
          · exact ihcov r'' h''
          · exact ⟨st.final.get ⟨i, hi⟩, List.get_mem st.final i hi,
              by rw [htext, List.mem_singleton.mp h'']⟩

/-- Sum of a pointwise sum of naturals splits. -/
theorem sum_map_add_nat (xs : List ℕ) (f g : ℕ → ℕ) :
    (xs.map (fun x => f x + g x)).sum = (xs.map f).sum + (xs.map g).sum := by
  induction xs with
  | nil => simp
  | cons a xs ih =>
    simp only [List.map_cons, List.sum_cons, ih]
    omega

/-- Sum over `range k` of the indicator of `r < n` is `min k n`. -/
theorem ind_sum_eq (k n : ℕ) :
    ((List.range k).map (fun r => if r < n then 1 else 0)).sum = min k n := by
  induction k with
  | zero => simp
  | succ k ih =>
    rw [List.range_succ, List.map_append, List.sum_append, ih]
    by_cases h : k < n <;> simp [h] <;> omega

/-- Head decomposition of the per-round pick count. -/
theorem filterMap_getElem_length_cons (round : ℕ) (l : List SearchResult)
    (ls : List (List SearchResult)) :
    (List.filterMap (fun l' => l'[round]?) (l :: ls)).length =
      (if round < l.length then 1 else 0)
        + (List.filterMap (fun l' => l'[round]?) ls).length := by
  rcases h : l[round]? with _ | r
  · have hge : ¬ round < l.length := by
      by_contra hc
      rw [List.getElem?_eq_getElem hc] at h
      exact Option.noConfusion h
    simp [List.filterMap_cons, h, hge]
  · have hlt : round < l.length := by
      by_contra hc
      rw [List.getElem?_eq_none (by omega)] at h
      exact Option.noConfusion h
    simp [List.filterMap_cons, h, hlt, Nat.add_comm]

/-- The round-robin pick sequence is no longer than the total number of
results across the per-query lists. -/
theorem RR_length_le (k : ℕ) (lists : List (List SearchResult)) :
    ((List.range k).flatMap
      (fun r => lists.filterMap (fun l => l[r]?))).length ≤
      (lists.map List.length).sum := by
  induction lists with
  | nil =>
    rw [List.length_flatMap]
    have : (List.map (List.length ∘ fun _ : ℕ =>
        ([] : List SearchResult)) (List.range k)) =
        (List.range k).map (fun _ => 0) :=
      List.map_congr_left (fun r _ => rfl)
    simp [this]
  | cons l ls ih =>
    rw [List.length_flatMap] at ih ⊢
    simp only [Function.comp_def] at ih ⊢
    calc ((List.range k).map
          (fun r => (List.filterMap (fun l' => l'[r]?) (l :: ls)).length)).sum
        = ((List.range k).map (fun r => (if r < l.length then 1 else 0)
            + (List.filterMap (fun l' => l'[r]?) ls).length)).sum :=
          congrArg List.sum (List.map_congr_left
            (fun r _ => filterMap_getElem_length_cons r l ls))
      _ = ((List.range k).map (fun r => if r < l.length then 1 else 0)).sum
          + ((List.range k).map
            (fun r => (List.filterMap (fun l' => l'[r]?) ls).length)).sum :=
          sum_map_add_nat _ _ _
      _ ≤ l.length + (ls.map List.length).sum := by
          rw [ind_sum_eq]
          have := min_le_right k l.length
          omega
      _ = ((l :: ls).map List.length).sum := by simp

/-- When the results still to be examined fit under `top_k`, the inner
pass never hits its early exit and equals a fold of the merge body over
the picks of this round. -/
theorem innerPass_no_break (k round : ℕ) :
    ∀ (ls : List (List SearchResult)) (st : MergeState),
      st.final.length + (ls.filterMap (fun l => l[round]?)).length ≤ k →
      innerPass k round st ls =
        (ls.filterMap (fun l => l[round]?)).foldl processResult st
      ∧ (innerPass k round st ls).final.length ≤
          st.final.length + (ls.filterMap (fun l => l[round]?)).length := by
  intro ls
  induction ls with
  | nil =>
    intro st _
    simp [innerPass]
  | cons l ls ih =>
    intro st hst
    rcases hget : l[round]? with _ | r
    · have hfm : List.filterMap (fun l' => l'[round]?) (l :: ls) =
          List.filterMap (fun l' => l'[round]?) ls := by
        simp [List.filterMap_cons, hget]
      rw [hfm] at hst ⊢
      by_cases hbrk : k ≤ st.final.length
      · have hL : (List.filterMap (fun l' => l'[round]?) ls).length = 0 := by
          omega
        rw [List.length_eq_zero.mp hL]
        simp [innerPass, hbrk]
      · have := ih st hst
        simpa [innerPass, hbrk, hget] using this
    · have hfm : List.filterMap (fun l' => l'[round]?) (l :: ls) =
          r :: List.filterMap (fun l' => l'[round]?) ls := by
        simp [List.filterMap_cons, hget]
      rw [hfm] at hst ⊢
      have hbrk : ¬ k ≤ st.final.length := by
        simp only [List.length_cons] at hst
        omega
      have hst' : (processResult st r).final.length +
          (List.filterMap (fun l' => l'[round]?) ls).length ≤ k := by
        have := processResult_length_le st r
        simp only [List.length_cons] at hst
        omega
      obtain ⟨ih1, ih2⟩ := ih (processResult st r) hst'
      constructor
      · simpa [innerPass, hbrk, hget] using ih1
      · have hgrow := processResult_length_le st r
        have : (innerPass k round (processResult st r) ls).final.length ≤
            (processResult st r).final.length +
              (List.filterMap (fun l' => l'[round]?) ls).length := ih2
        simp only [List.length_cons]
        have heval : innerPass k round st (l :: ls) =
            innerPass k round (processResult st r) ls := by
          simp [innerPass, hbrk, hget]
        rw [heval]
        omega

/-- When all remaining round-robin picks fit under `top_k`, the whole
round loop equals a fold of the merge body over the round-major pick
sequence. -/
theorem roundLoop_no_break (k : ℕ) (lists : List (List SearchResult)) :
    ∀ (fuel round : ℕ) (st : MergeState),
      st.final.length + ((List.range' round fuel).flatMap
        (fun rd => lists.filterMap (fun l => l[rd]?))).length ≤ k →
      roundLoop k lists round fuel st =
        ((List.range' round fuel).flatMap
          (fun rd => lists.filterMap (fun l => l[rd]?))).foldl
          processResult st
      ∧ (roundLoop k lists round fuel st).final.length ≤
          st.final.length + ((List.range' round fuel).flatMap
            (fun rd => lists.filterMap (fun l => l[rd]?))).length := by
  intro fuel
  induction fuel with
  | zero =>
    intro round st _
    simp [roundLoop]
  | succ fuel ih =>
    intro round st hst
    have hsplit : (List.range' round (fuel + 1)).flatMap
        (fun rd => lists.filterMap (fun l => l[rd]?)) =
        lists.filterMap (fun l => l[round]?) ++
          (List.range' (round + 1) fuel).flatMap
            (fun rd => lists.filterMap (fun l => l[rd]?)) := by
      rw [List.range'_succ, List.flatMap_cons]
    rw [hsplit] at hst ⊢
    by_cases hbrk : k ≤ st.final.length
    · have hL : (lists.filterMap (fun l => l[round]?)).length = 0
          ∧ ((List.range' (round + 1) fuel).flatMap
            (fun rd => lists.filterMap (fun l => l[rd]?))).length = 0 := by
        rw [List.length_append] at hst
        omega
      rw [List.length_eq_zero.mp hL.1, List.length_eq_zero.mp hL.2]
      simp [roundLoop, hbrk]
    · rw [List.length_append] at hst
      have hinner : st.final.length +
          (lists.filterMap (fun l => l[round]?)).length ≤ k := by omega
      obtain ⟨hin1, hin2⟩ := innerPass_no_break k round lists st hinner
      have hnext : (innerPass k round st lists).final.length +
          ((List.range' (round + 1) fuel).flatMap
            (fun rd => lists.filterMap (fun l => l[rd]?))).length ≤ k := by
        omega
      obtain ⟨ih1, ih2⟩ := ih (round + 1) (innerPass k round st lists) hnext
      constructor
      · rw [roundLoop, if_neg hbrk, ih1, hin1, List.foldl_append]
      · rw [roundLoop, if_neg hbrk, List.length_append]
        omega

/-- Membership in the round-robin pick sequence coincides with membership
in the concatenation of the per-query lists once every list is shorter
than the round budget. -/
theorem mem_RR_iff (k : ℕ) (lists : List (List SearchResult))
    (hlen : ∀ l ∈ lists, l.length ≤ k) (x : SearchResult) :
    (x ∈ (List.range k).flatMap
      (fun r => lists.filterMap (fun l => l[r]?)))
      ↔ x ∈ lists.flatten := by
  rw [List.mem_flatMap]
  constructor
  · rintro ⟨r, _, hx⟩
    obtain ⟨l, hl, hlx⟩ := List.mem_filterMap.mp hx
    have hr : r < l.length := by
      by_contra hc
      rw [List.getElem?_eq_none (by omega)] at hlx
      exact Option.noConfusion hlx
    rw [List.getElem?_eq_getElem hr] at hlx
    exact List.mem_flatten.mpr
      ⟨l, hl, (Option.some_inj.mp hlx) ▸ List.getElem_mem hr⟩
  · intro hx
    obtain ⟨l, hl, hxl⟩ := List.mem_flatten.mp hx
    obtain ⟨r, hr, hrx⟩ := List.getElem_of_mem hxl
    refine ⟨r, List.mem_range.mpr (lt_of_lt_of_le hr (hlen l hl)), ?_⟩
    exact List.mem_filterMap.mpr ⟨l, hl, by rw [List.getElem?_eq_getElem hr, hrx]⟩

/-- When `top_k` exceeds the total number of per-query results, the merge
is exactly the fold of the merge body over the round-robin pick sequence. -/
theorem merge_no_break (lists : List (List SearchResult)) (k : ℕ)
    (h : (lists.map List.length).sum < k) :
    merge_search_results lists k =
      (((List.range k).flatMap
        (fun r => lists.filterMap (fun l => l[r]?))).foldl
        processResult ⟨[], []⟩).final := by
  have hle := RR_length_le k lists
  have hhyp : (⟨[], []⟩ : MergeState).final.length +
      ((List.range' 0 k).flatMap
        (fun rd => lists.filterMap (fun l => l[rd]?))).length ≤ k := by
    rw [← List.range_eq_range']
    simp only [List.length_nil]
    omega
  have := (roundLoop_no_break k lists k 0 ⟨[], []⟩ hhyp).1
  rw [merge_search_results, this, ← List.range_eq_range']

/-- Counterexample to C4 as stated: when the `top_k` cutoff stops the
merge before a later, higher-scoring duplicate is examined, the kept
occurrence is not the highest-scoring one.  With lists `[[a:1/2]]` and
`[[a:9/10]]` and `top_k = 1` the merge keeps `a` with score `1/2` even
though an occurrence with score `9/10` exists. -/
theorem C4_merge_highest_score_counterexample :
    merge_search_results
        [[⟨"a".toList, [], [], 1/2⟩], [⟨"a".toList, [], [], 9/10⟩]] 1 =
      [⟨"a".toList, [], [], 1/2⟩]
    ∧ (⟨"a".toList, [], [], 9/10⟩ : SearchResult) ∈
        ([[⟨"a".toList, [], [], 1/2⟩],
          [⟨"a".toList, [], [], 9/10⟩]] : List (List SearchResult)).flatten
    ∧ ((1 : ℚ)/2 < 9/10) := by
  refine ⟨?_, by simp, by norm_num⟩
  norm_num +decide [merge_search_results, roundLoop, innerPass,
    processResult, findSeen]

/-- C4 (amended): the spec's concrete round-robin example behaves as
stated (`a` kept once with the higher score 0.95, plus `b` and `c`, three
results in total); in general a chunk text appearing several times is kept
at most once, and — provided `top_k` exceeds the total number of results,
so that the cutoff skips no occurrence — each stored text appears exactly
once, carrying the highest similarity score among all its occurrences. -/
theorem C4_merge_duplicate_highest_amended :
    (merge_search_results
        [[⟨"a".toList, [], [], 9/10⟩, ⟨"b".toList, [], [], 1/2⟩],
         [⟨"a".toList, [], [], 19/20⟩, ⟨"c".toList, [], [], 3/5⟩]] 3 =
      [⟨"a".toList, [], [], 19/20⟩, ⟨"b".toList, [], [], 1/2⟩,
       ⟨"c".toList, [], [], 3/5⟩])
    ∧ ∀ (lists : List (List SearchResult)) (k : ℕ),
        (lists.map List.length).sum < k →
        (∀ res ∈ merge_search_results lists k,
            res ∈ lists.flatten
            ∧ ∀ r' ∈ lists.flatten, r'.chunk_text = res.chunk_text →
                r'.similarity_score ≤ res.similarity_score)
        ∧ (∀ r ∈ lists.flatten, ∃ res ∈ merge_search_results lists k,
            res.chunk_text = r.chunk_text)
        ∧ ((merge_search_results lists k).map (fun r => r.chunk_text)).Nodup := by
  constructor
  · norm_num +decide [merge_search_results, roundLoop, innerPass,
      processResult, findSeen]
  · intro lists k hk
    have hlen : ∀ l ∈ lists, l.length ≤ k := by
      intro l hl
      have h1 : l.length ≤ (lists.map List.length).sum :=
        List.single_le_sum (by simp) _ (List.mem_map_of_mem _ hl)
      omega
    have heq := merge_no_break lists k hk
    obtain ⟨hmax, hcov⟩ := mergeFold_max
      ((List.range k).flatMap (fun r => lists.filterMap (fun l => l[r]?)))
    refine ⟨?_, ?_, mergeInv_nodup (merge_state_inv lists k).1⟩
    · intro res hres
      rw [heq] at hres
      obtain ⟨hmem, hbest⟩ := hmax res hres
      refine ⟨(mem_RR_iff k lists hlen res).mp hmem, ?_⟩
      intro r' hr' ht
      exact hbest r' ((mem_RR_iff k lists hlen r').mpr hr') ht
    · intro r hr
      obtain ⟨res, hres, ht⟩ := hcov r ((mem_RR_iff k lists hlen r).mpr hr)
      rw [heq]
      exact ⟨res, hres, ht⟩

/-- Witness for C4 (amended): a singleton list with `top_k = 2` — the
merge keeps the single chunk with its (sole, hence highest) score. -/
theorem C4_merge_duplicate_highest_amended_witness :
    (∀ res ∈ merge_search_results [[⟨"a".toList, [], [], (1 : ℚ)⟩]] 2,
        res ∈ ([[⟨"a".toList, [], [], (1 : ℚ)⟩]] :
            List (List SearchResult)).flatten
        ∧ ∀ r' ∈ ([[⟨"a".toList, [], [], (1 : ℚ)⟩]] :
            List (List SearchResult)).flatten,
            r'.chunk_text = res.chunk_text →
              r'.similarity_score ≤ res.similarity_score)
    ∧ (∀ r ∈ ([[⟨"a".toList, [], [], (1 : ℚ)⟩]] :
          List (List SearchResult)).flatten,
        ∃ res ∈ merge_search_results [[⟨"a".toList, [], [], (1 : ℚ)⟩]] 2,
          res.chunk_text = r.chunk_text)
    ∧ ((merge_search_results [[⟨"a".toList, [], [], (1 : ℚ)⟩]] 2).map
        (fun r => r.chunk_text)).Nodup :=
  C4_merge_duplicate_highest_amended.2 [[⟨"a".toList, [], [], (1 : ℚ)⟩]] 2
    (by decide)

/-! ## Claims C3 and C8 — chunker semantics -/

/-- `strip` yields the empty string exactly on all-whitespace input. -/
theorem strip_eq_nil_iff (s : Str) : strip s = [] ↔ ∀ c ∈ s, isWS c := by
  unfold strip
  rw [List.reverse_eq_nil_iff, List.dropWhile_eq_nil_iff]
  constructor
  · intro h c hc
    rcases List.mem_append.mp
        ((List.takeWhile_append_dropWhile (p := isWS) (l := s)) ▸ hc) with
      h1 | h1
    · exact List.mem_takeWhile_imp h1
    · exact h c (List.mem_reverse.mpr h1)
  · intro h c hc
    exact h c ((List.dropWhile_suffix isWS).mem (List.mem_reverse.mp hc))

/-- `strip` drops a leading whitespace character. -/
theorem strip_cons_ws {c : Char} (hc : isWS c) (s : Str) :
    strip (c :: s) = strip s := by
  unfold strip
  rw [List.dropWhile_cons_of_pos hc]

/-- The first character surviving `dropWhile` fails the predicate. -/
theorem dropWhile_head_not (p : Char → Bool) :
    ∀ (l : List Char) (c : Char) (t : List Char),
      l.dropWhile p = c :: t → p c = false := by
  intro l
  induction l with
  | nil => intro c t h; exact absurd h (by simp)
  | cons a l ih =>
    intro c t h
    by_cases ha : p a
    · rw [List.dropWhile_cons_of_pos ha] at h
      exact ih c t h
    · rw [List.dropWhile_cons_of_neg ha] at h
      injection h with h1 h2
      subst h1
      simpa using ha

/-- `dropWhile` is the identity when the head (if any) fails the
predicate. -/
theorem dropWhile_eq_self_of_head (p : Char → Bool) (l : List Char)
    (h : ∀ c, l.head? = some c → p c = false) : l.dropWhile p = l := by
  cases l with
  | nil => rfl
  | cons a l =>
    have := h a rfl
    rw [List.dropWhile_cons_of_neg (by simp [this])]

/-- `strip s` is a contiguous piece of `s`. -/
theorem strip_infix_self (s : Str) : List.IsInfix (strip s) s := by
  have h1 : List.IsSuffix (List.dropWhile isWS s) s := List.dropWhile_suffix isWS
  have h2 : List.IsPrefix (strip s) (List.dropWhile isWS s) := by
    have h3 : List.IsSuffix
        (List.dropWhile isWS (List.dropWhile isWS s).reverse)
        (List.dropWhile isWS s).reverse := List.dropWhile_suffix isWS
    unfold strip
    rw [← List.reverse_reverse (List.dropWhile isWS s)]
    exact List.reverse_prefix.mpr (by simpa using h3)
  exact h2.isInfix.trans h1.isInfix

/-- Any leading character of a stripped string is not whitespace. -/
theorem strip_head_not_ws (s : Str) (c : Char)
    (h : (strip s).head? = some c) : isWS c = false := by
  unfold strip at h
  rw [List.head?_reverse] at h
  set w := List.dropWhile isWS (List.dropWhile isWS s).reverse with hw
  have hwne : w ≠ [] := by
    intro hnil
    rw [hnil] at h
    exact Option.noConfusion h
  have hsuf : List.IsSuffix w (List.dropWhile isWS s).reverse :=
    List.dropWhile_suffix isWS
  obtain ⟨v, hv⟩ := hsuf
  have hlast : w.getLast? = (List.dropWhile isWS s).reverse.getLast? := by
    rw [← hv]
    exact (List.getLast?_append_of_ne_nil v hwne).symm
  rw [hlast, List.getLast?_reverse] at h
  rcases hu : List.dropWhile isWS s with _ | ⟨a, t⟩
  · rw [hu] at h
    exact Option.noConfusion h
  · rw [hu] at h
    have : a = c := by simpa using h
    subst this
    exact dropWhile_head_not isWS s a t hu

/-- Any trailing character of a stripped string is not whitespace. -/
theorem strip_getLast_not_ws (s : Str) (c : Char)
    (h : (strip s).getLast? = some c) : isWS c = false := by
  unfold strip at h
  rw [List.getLast?_reverse] at h
  rcases hw : List.dropWhile isWS (List.dropWhile isWS s).reverse with _ | ⟨a, t⟩
  · rw [hw] at h
    exact Option.noConfusion h
  · rw [hw] at h
    have : a = c := by simpa using h
    subst this
    exact dropWhile_head_not isWS _ a t hw

/-- A string whose first and last characters are not whitespace is its own
strip. -/
theorem strip_eq_self_of_ends (l : Str)
    (hh : ∀ c, l.head? = some c → isWS c = false)
    (hl : ∀ c, l.getLast? = some c → isWS c = false) : strip l = l := by
  unfold strip
  rw [dropWhile_eq_self_of_head isWS l hh]
  rw [dropWhile_eq_self_of_head isWS l.reverse
    (fun c hc => hl c (by rwa [List.head?_reverse] at hc))]
  exact List.reverse_reverse l

/-- `strip` is idempotent. -/
theorem strip_strip (s : Str) : strip (strip s) = strip s :=
  strip_eq_self_of_ends (strip s) (strip_head_not_ws s) (strip_getLast_not_ws s)

/-- `splitNN` always produces at least one piece. -/
theorem splitNN_ne_nil (s : Str) : splitNN s ≠ [] := by
  match s with
  | [] => simp [splitNN]
  | [c] => simp [splitNN]
  | a :: b :: rest =>
    rw [splitNN]
    by_cases h : a = '\n' ∧ b = '\n' <;> simp [h]

/-- `hasNN` on a two-or-more-character string. -/
theorem hasNN_cons_cons (a b : Char) (rest : Str) :
    hasNN (a :: b :: rest) =
      ((a = '\n' && b = '\n') || hasNN (b :: rest)) := by
  rw [hasNN]

/-- Splitting `p ++ rest` when `p` is free of `"\n\n"` and does not end in
a newline: the first piece of the split of `rest` is extended by `p`. -/
theorem splitNN_append :
    ∀ (p : Str), p ≠ [] → hasNN p = false →
      (∀ c, p.getLast? = some c → c ≠ '\n') →
      ∀ rest, splitNN (p ++ rest) =
        (p ++ (splitNN rest).headI) :: (splitNN rest).tail := by
  intro p
  induction p with
  | nil => intro h; exact absurd rfl h
  | cons a p ih =>
    intro _ hnn hlast rest
    rcases p with _ | ⟨b, t⟩
    · have ha : a ≠ '\n' := hlast a rfl
      rcases rest with _ | ⟨d, rest'⟩
      · simp [splitNN]
      · rw [List.singleton_append, splitNN, if_neg (by tauto)]
        simp
    · have hab : ¬ (a = '\n' ∧ b = '\n') := by
        intro hcon
        rw [hasNN_cons_cons, hcon.1, hcon.2] at hnn
        simp at hnn
      have hnn2 : hasNN (b :: t) = false := by
        rw [hasNN_cons_cons] at hnn
        exact (Bool.or_eq_false_iff.mp hnn).2
      have hlast2 : ∀ c, (b :: t).getLast? = some c → c ≠ '\n' := by
        intro c hc
        exact hlast c (by rwa [List.getLast?_cons_cons])
      have hih := ih (by simp) hnn2 hlast2 rest
      have hshape : (a :: b :: t) ++ rest = a :: b :: (t ++ rest) := rfl
      rw [hshape, splitNN, if_neg hab]
      have hshape2 : b :: (t ++ rest) = (b :: t) ++ rest := rfl
      rw [hshape2, hih]
      simp

/-- The first piece of a split of a non-empty string is either empty or
starts with the string's first character. -/
theorem splitNN_headI_shape (b : Char) (rest : Str) :
    (splitNN (b :: rest)).headI = [] ∨
      ∃ t, (splitNN (b :: rest)).headI = b :: t := by
  rcases rest with _ | ⟨c, rest'⟩
  · right
    exact ⟨[], by simp [splitNN]⟩
  · rw [splitNN]
    by_cases h : b = '\n' ∧ c = '\n'
    · left
      simp [h]
    · right
      exact ⟨(splitNN (c :: rest')).headI, by simp [h]⟩

/-- No piece produced by `splitNN` contains the separator `"\n\n"`. -/
theorem splitNN_no_nn : ∀ (s : Str), ∀ q ∈ splitNN s, hasNN q = false := by
  intro s
  match s with
  | [] =>
    intro q hq
    rw [splitNN] at hq
    simp at hq
    simp [hq, hasNN]
  | [c] =>
    intro q hq
    rw [splitNN] at hq
    simp at hq
    simp [hq, hasNN]
  | a :: b :: rest =>
    intro q hq
    rw [splitNN] at hq
    by_cases h : a = '\n' ∧ b = '\n'
    · rw [if_pos h] at hq
      rcases List.mem_cons.mp hq with rfl | hq'
      · rfl
      · exact splitNN_no_nn rest q hq'
    · rw [if_neg h] at hq
      rcases List.mem_cons.mp hq with rfl | hq'
      · rcases splitNN_headI_shape b rest with hsh | ⟨t, hsh⟩
        · simp [hsh, hasNN]
        · rw [hsh, hasNN_cons_cons]
          have h1 : (a = '\n' && b = '\n') = false := by
            rcases Decidable.em (a = '\n') with h2 | h2 <;>
              rcases Decidable.em (b = '\n') with h3 | h3 <;>
              simp [h2, h3] <;> exact h ⟨h2, h3⟩
          rw [h1]
          have h2 : b :: t = (splitNN (b :: rest)).headI := hsh.symm
          rw [h2]
          have hne := splitNN_ne_nil (b :: rest)
          have : (splitNN (b :: rest)).headI ∈ splitNN (b :: rest) := by
            rcases hx : splitNN (b :: rest) with _ | ⟨x, xs⟩
            · exact absurd hx hne
            · simp
          simpa using splitNN_no_nn (b :: rest) _ this
      · have : q ∈ splitNN (b :: rest) := by
          rcases hx : splitNN (b :: rest) with _ | ⟨x, xs⟩
          · exact absurd hx (splitNN_ne_nil (b :: rest))
          · rw [hx] at hq'
            simp at hq'
            simp [hq']
        exact splitNN_no_nn (b :: rest) q this

/-- `joinNN` on a list with a non-empty tail. -/
theorem joinNN_cons (q : Str) (S : List Str) (h : S ≠ []) :
    joinNN (q :: S) = q ++ '\n' :: '\n' :: joinNN S := by
  rcases S with _ | ⟨s, t⟩
  · exact absurd rfl h
  · rw [joinNN]
    simp

/-- Prepending a character to the first string commutes with `joinNN`. -/
theorem joinNN_cons_head (a : Char) (q : Str) (qs : List Str) :
    joinNN ((a :: q) :: qs) = a :: joinNN (q :: qs) := by
  rcases qs with _ | ⟨s, t⟩
  · rw [joinNN, joinNN]
  · rw [joinNN_cons (a :: q) (s :: t) (by simp),
      joinNN_cons q (s :: t) (by simp)]
    simp

/-- Rejoining the pieces of `splitNN` with the separator recovers the
original string. -/
theorem splitNN_reconstruct : ∀ (s : Str), joinNN (splitNN s) = s := by
  intro s
  match s with
  | [] => rw [splitNN, joinNN]
  | [c] => rw [splitNN, joinNN]
  | a :: b :: rest =>
    rw [splitNN]
    by_cases h : a = '\n' ∧ b = '\n'
    · rw [if_pos h, joinNN_cons _ _ (splitNN_ne_nil rest),
        splitNN_reconstruct rest]
      simp [h.1, h.2]
    · rw [if_neg h]
      have hne := splitNN_ne_nil (b :: rest)
      have hcons : (splitNN (b :: rest)).headI :: (splitNN (b :: rest)).tail
          = splitNN (b :: rest) := by
        rcases hx : splitNN (b :: rest) with _ | ⟨x, xs⟩
        · exact absurd hx hne
        · simp
      rw [joinNN_cons_head, hcons, splitNN_reconstruct (b :: rest)]

/-- Every character of a joined list lies in some piece or is a newline. -/
theorem mem_joinNN : ∀ (L : List Str) (x : Char), x ∈ joinNN L →
    (∃ q ∈ L, x ∈ q) ∨ x = '\n' := by
  intro L
  match L with
  | [] =>
    intro x hx
    rw [joinNN] at hx
    exact absurd hx (List.not_mem_nil x)
  | [c] =>
    intro x hx
    rw [joinNN] at hx
    exact Or.inl ⟨c, by simp, hx⟩
  | c :: d :: t =>
    intro x hx
    rw [joinNN_cons _ _ (by simp)] at hx
    rcases List.mem_append.mp hx with h1 | h1
    · exact Or.inl ⟨c, by simp, h1⟩
    · rcases List.mem_cons.mp h1 with rfl | h2
      · exact Or.inr rfl
      · rcases List.mem_cons.mp h2 with rfl | h3
        · exact Or.inr rfl
        · rcases mem_joinNN (d :: t) x h3 with ⟨q, hq, hxq⟩ | h4
          · exact Or.inl ⟨q, List.mem_cons_of_mem _ hq, hxq⟩
          · exact Or.inr h4

/-- `hasNN` detects exactly the presence of `"\n\n"` as a contiguous
substring. -/
theorem hasNN_iff_contains_sep : ∀ (s : Str),
    hasNN s = true ↔ List.IsInfix ['\n', '\n'] s := by
  intro s
  match s with
  | [] =>
    constructor
    · intro h
      rw [hasNN] at h
      exact absurd h (by simp)
    · intro h
      have := h.length_le
      simp at this
  | [c] =>
    constructor
    · intro h
      rw [hasNN] at h
      exact absurd h (by simp)
    · intro h
      have := h.length_le
      simp at this
  | a :: b :: rest =>
    rw [hasNN_cons_cons]
    constructor
    · intro h
      rcases Bool.or_eq_true_iff.mp h with h1 | h1
      · obtain ⟨h2, h3⟩ := Bool.and_eq_true_iff.mp h1
        have ha : a = '\n' := by simpa using h2
        have hb : b = '\n' := by simpa using h3
        subst ha hb
        exact ⟨[], rest, rfl⟩
      · exact ((hasNN_iff_contains_sep (b :: rest)).mp h1).trans
          (List.suffix_cons a (b :: rest)).isInfix
    · intro h
      rcases List.infix_cons_iff.mp h with h1 | h1
      · obtain ⟨ha, h2⟩ := List.cons_prefix_cons.mp h1
        obtain ⟨hb, _⟩ := List.cons_prefix_cons.mp h2
        simp [ha.symm, hb.symm]
      · rw [(hasNN_iff_contains_sep (b :: rest)).mpr h1]
        simp

/-- `strip` of the empty string. -/
theorem strip_nil : strip [] = [] := rfl

/-- `splitNN` output decomposes as head-cons-tail. -/
theorem splitNN_headI_cons_tail (s : Str) :
    (splitNN s).headI :: (splitNN s).tail = splitNN s := by
  rcases hx : splitNN s with _ | ⟨x, xs⟩
  · exact absurd hx (splitNN_ne_nil s)
  · simp

/-- A run of at least two newlines before text whose first character is
not a newline contributes no chunk: it is exactly one paragraph break. -/
theorem chunkCore_rep : ∀ (k : ℕ), 2 ≤ k → ∀ (rest : Str),
    rest.head? ≠ some '\n' →
    chunkCore (List.replicate k '\n' ++ rest) = chunkCore rest := by
  intro k
  induction k using Nat.strong_induction_on with
  | _ k ih =>
    intro hk rest hrest
    match k, hk with
    | 2, _ =>
      have hs : splitNN ('\n' :: '\n' :: rest) = [] :: splitNN rest := by
        rw [splitNN]
        simp
      have hrep : List.replicate 2 '\n' ++ rest = '\n' :: '\n' :: rest := by
        simp [List.replicate_succ]
      rw [hrep]
      simp [chunkCore, hs, strip_nil]
    | 3, _ =>
      have hrep : List.replicate 3 '\n' ++ rest =
          '\n' :: '\n' :: '\n' :: rest := by
        simp [List.replicate_succ]
      rw [hrep]
      have hs : splitNN ('\n' :: '\n' :: '\n' :: rest) =
          [] :: splitNN ('\n' :: rest) := by
        rw [splitNN]
        simp
      rcases rest with _ | ⟨c, rest'⟩
      · decide
      · have hc : c ≠ '\n' := by
          intro hcon
          exact hrest (by simp [hcon])
        have hs2 : splitNN ('\n' :: c :: rest') =
            ('\n' :: (splitNN (c :: rest')).headI) ::
              (splitNN (c :: rest')).tail := by
          rw [splitNN, if_neg (by tauto)]
        have hwnl : isWS '\n' = true := by decide
        have hmap : List.map strip (splitNN ('\n' :: c :: rest')) =
            strip (splitNN (c :: rest')).headI ::
              List.map strip ((splitNN (c :: rest')).tail) := by
          rw [hs2]
          simp [strip_cons_ws hwnl]
        have hmap2 : List.map strip (splitNN (c :: rest')) =
            strip (splitNN (c :: rest')).headI ::
              List.map strip ((splitNN (c :: rest')).tail) := by
          conv_lhs => rw [← splitNN_headI_cons_tail (c :: rest')]
          simp
        rw [chunkCore, hs, List.map_cons, hmap, strip_nil, chunkCore, hmap2]
        simp [List.filter_cons]
    | (m + 4), _ =>
      have hrep : List.replicate (m + 4) '\n' ++ rest =
          '\n' :: '\n' :: (List.replicate (m + 2) '\n' ++ rest) := by
        simp [List.replicate_succ]
      rw [hrep]
      have hs : splitNN ('\n' :: '\n' ::
          (List.replicate (m + 2) '\n' ++ rest)) =
          [] :: splitNN (List.replicate (m + 2) '\n' ++ rest) := by
        rw [splitNN]
        simp
      have hih := ih (m + 2) (by omega) (by omega) rest hrest
      rw [chunkCore, hs]
      simp only [List.map_cons, List.filter_cons]
      simpa [chunkCore] using hih

/-- A non-empty stripped string does not end in a newline. -/
theorem good_getLast_ne_nl (p : Str) (hs : strip p = p) :
    ∀ c, p.getLast? = some c → c ≠ '\n' := by
  intro c hc hcon
  subst hcon
  have := strip_getLast_not_ws p '\n' (by rwa [hs])
  simp [isWS] at this

/-- A non-empty stripped string does not start with a newline. -/
theorem good_head_ne_nl (p : Str) (hs : strip p = p) :
    ∀ c, p.head? = some c → c ≠ '\n' := by
  intro c hc hcon
  subst hcon
  have := strip_head_not_ws p '\n' (by rwa [hs])
  simp [isWS] at this

/-- A single good paragraph chunks to itself. -/
theorem chunkCore_single (p : Str) (hne : p ≠ []) (hs : strip p = p)
    (hnn : hasNN p = false) : chunkCore p = [p] := by
  have h := splitNN_append p hne hnn (good_getLast_ne_nl p hs) []
  rw [List.append_nil] at h
  have hsp : splitNN p = [p] := by
    rw [h, splitNN]
    simp
  rw [chunkCore, hsp]
  simp [hs, hne]

/-- A good paragraph, a separator run of at least two newlines, and a
remainder not starting with a newline: the paragraph becomes one chunk and
the rest chunks independently. -/
theorem chunkCore_append_sep (p : Str) (hne : p ≠ []) (hs : strip p = p)
    (hnn : hasNN p = false) (k : ℕ) (hk : 2 ≤ k) (rest : Str)
    (hrest : rest.head? ≠ some '\n') :
    chunkCore (p ++ (List.replicate k '\n' ++ rest)) =
      p :: chunkCore rest := by
  obtain ⟨m, rfl⟩ : ∃ m, k = m + 2 := ⟨k - 2, by omega⟩
  have hrep : List.replicate (m + 2) '\n' ++ rest =
      '\n' :: '\n' :: (List.replicate m '\n' ++ rest) := by
    simp [List.replicate_succ]
  have hsplit := splitNN_append p hne hnn (good_getLast_ne_nl p hs)
    (List.replicate (m + 2) '\n' ++ rest)
  have hS : splitNN (List.replicate (m + 2) '\n' ++ rest) =
      [] :: splitNN (List.replicate m '\n' ++ rest) := by
    rw [hrep, splitNN]
    simp
  rw [hS] at hsplit
  simp only [List.headI, List.tail, List.append_nil] at hsplit
  rw [chunkCore, hsplit]
  simp only [List.map_cons, List.filter_cons, hs]
  have hpkeep : (!p.isEmpty) = true := by
    simpa using hne
  rw [if_pos (by simp [hpkeep])]
  have hr : chunkCore (List.replicate (m + 2) '\n' ++ rest) =
      chunkCore rest := chunkCore_rep (m + 2) (by omega) rest hrest
  rw [chunkCore, hS] at hr
  simp only [chunkCore] at hr ⊢
  simp only [List.map_cons, strip_nil, List.filter_cons] at hr
  rw [if_neg (by simp)] at hr
  rw [hr]

/-- `joinSeps` over a non-empty paragraph list starts with the first
paragraph. -/
theorem joinSeps_cons_eq_append (p : Str) (ps : List Str) (ks : List ℕ) :
    ∃ z, joinSeps (p :: ps) ks = p ++ z := by
  rcases ks with _ | ⟨k, ks'⟩
  · exact ⟨[], by rw [joinSeps, List.append_nil]⟩
  · exact ⟨List.replicate k '\n' ++ joinSeps ps ks', by rw [joinSeps,
      List.append_assoc]⟩

/-- Chunking a join of good paragraphs separated by runs of at least two
newlines recovers exactly the paragraphs. -/
theorem chunkCore_joinSeps :
    ∀ (ps : List Str) (ks : List ℕ),
      (∀ p ∈ ps, p ≠ [] ∧ strip p = p ∧ hasNN p = false) →
      ks.length = ps.length - 1 → (∀ k ∈ ks, 2 ≤ k) →
      chunkCore (joinSeps ps ks) = ps := by
  intro ps
  induction ps with
  | nil =>
    intro ks _ _ _
    rw [joinSeps]
    decide
  | cons p ps ih =>
    intro ks hgood hlen hk2
    obtain ⟨hpne, hpstrip, hpnn⟩ := hgood p (by simp)
    rcases ks with _ | ⟨k, ks'⟩
    · have hps : ps = [] := by
        simp at hlen
        exact List.length_eq_zero.mp (by omega)
      subst hps
      rw [joinSeps]
      exact chunkCore_single p hpne hpstrip hpnn
    · rcases ps with _ | ⟨p2, ps''⟩
      · simp at hlen
      · obtain ⟨hp2ne, hp2strip, _⟩ := hgood p2 (by simp)
        have hrest_head : (joinSeps (p2 :: ps'') ks').head? ≠ some '\n' := by
          obtain ⟨z, hz⟩ := joinSeps_cons_eq_append p2 ps'' ks'
          rw [hz]
          rcases p2 with _ | ⟨c, t⟩
          · exact absurd rfl hp2ne
          · intro hcon
            have hcha : c = '\n' := by simpa using hcon
            exact good_head_ne_nl (c :: t) hp2strip c rfl hcha
        have hsplit : joinSeps (p :: p2 :: ps'') (k :: ks') =
            p ++ (List.replicate k '\n' ++ joinSeps (p2 :: ps'') ks') := by
          rw [joinSeps, List.append_assoc]
        rw [hsplit, chunkCore_append_sep p hpne hpstrip hpnn k
          (hk2 k (by simp)) _ hrest_head]
        have hih := ih ks' (fun q hq => hgood q (List.mem_cons_of_mem _ hq))
          (by simp at hlen ⊢; omega) (fun k' hk' => hk2 k' (by simp [hk']))
        rw [hih]

/-- A join starting with a good paragraph is not all-whitespace. -/
theorem strip_joinSeps_ne_nil (p : Str) (ps : List Str) (ks : List ℕ)
    (hpne : p ≠ []) (hpstrip : strip p = p) :
    strip (joinSeps (p :: ps) ks) ≠ [] := by
  obtain ⟨z, hz⟩ := joinSeps_cons_eq_append p ps ks
  rw [hz]
  intro hcon
  have hall := (strip_eq_nil_iff (p ++ z)).mp hcon
  have hallp : ∀ c ∈ p, isWS c := fun c hc =>
    hall c (List.mem_append_left z hc)
  have : strip p = [] := (strip_eq_nil_iff p).mpr hallp
  rw [hpstrip] at this
  exact hpne this

/-- Counterexample to C3 as stated: a line containing only whitespace (a
single space) does not separate paragraphs in `chunk_by_paragraphs` — the
code splits on the exact two-character separator `"\n\n"` only — whereas
the claim's reading (blank line = empty or whitespace-only) would split
`"a\n \nb"` into two paragraphs. -/
theorem C3_chunk_blank_line_counterexample :
    chunk_by_paragraphs "a\n \nb".toList = .ok ["a\n \nb".toList]
    ∧ specChunkBlankWS "a\n \nb".toList = ["a".toList, "b".toList]
    ∧ chunk_by_paragraphs "a\n \nb".toList ≠
        .ok (specChunkBlankWS "a\n \nb".toList) := by
  exact ⟨by decide, by decide, by decide⟩

/-- C3 (amended): `chunk_by_paragraphs` splits exactly at the
two-character separator `"\n\n"`: for paragraphs that are non-empty,
stripped, and free of `"\n\n"`, joined by runs of two or more newline
characters (one or more truly empty blank lines), the result is the
ordered sequence of the paragraphs; whitespace-only lines do not
separate (for PDFs those are normalised to `"\n\n"` before chunking). -/
theorem C3_chunk_by_paragraphs_amended (ps : List Str) (ks : List ℕ)
    (hne : ps ≠ [])
    (hgood : ∀ p ∈ ps, p ≠ [] ∧ strip p = p ∧ hasNN p = false)
    (hlen : ks.length = ps.length - 1) (hk2 : ∀ k ∈ ks, 2 ≤ k) :
    chunk_by_paragraphs (joinSeps ps ks) = .ok ps := by
  rcases ps with _ | ⟨p, ps'⟩
  · exact absurd rfl hne
  · obtain ⟨hpne, hpstrip, _⟩ := hgood p (by simp)
    rw [chunk_by_paragraphs,
      if_neg (strip_joinSeps_ne_nil p ps' ks hpne hpstrip),
      chunkCore_joinSeps (p :: ps') ks hgood hlen hk2]

/-- Witness for C3 (amended): two one-character paragraphs joined by one
empty blank line (`"a\n\nb"`) chunk to exactly those paragraphs. -/
theorem C3_chunk_by_paragraphs_amended_witness :
    chunk_by_paragraphs (joinSeps [['a'], ['b']] [2]) =
      .ok [['a'], ['b']] :=
  C3_chunk_by_paragraphs_amended [['a'], ['b']] [2] (by decide)
    (by decide) (by decide) (by decide)

/-- If every piece strips to nothing, the whole text is whitespace. -/
theorem chunkCore_eq_nil_imp (text : Str) (h : chunkCore text = []) :
    strip text = [] := by
  have hall : ∀ x ∈ (splitNN text).map strip, ¬ (!x.isEmpty) = true :=
    List.filter_eq_nil_iff.mp h
  have hpieces : ∀ q ∈ splitNN text, strip q = [] := by
    intro q hq
    have := hall (strip q) (List.mem_map_of_mem strip hq)
    simpa using this
  rw [strip_eq_nil_iff]
  intro c hc
  rw [← splitNN_reconstruct text] at hc
  rcases mem_joinNN (splitNN text) c hc with ⟨q, hq, hcq⟩ | rfl
  · exact (strip_eq_nil_iff q).mp (hpieces q hq) c hcq
  · decide

/-- Every chunk produced by the chunker is non-empty, stripped, and free
of the separator. -/
theorem chunkCore_mem_good (text : Str) (c : Str) (hc : c ∈ chunkCore text) :
    c ≠ [] ∧ strip c = c ∧ hasNN c = false := by
  obtain ⟨hmem, hkeep⟩ := List.mem_filter.mp hc
  obtain ⟨q, hq, rfl⟩ := List.mem_map.mp hmem
  refine ⟨by simpa using hkeep, strip_strip q, ?_⟩
  by_contra hcon
  have h1 : hasNN (strip q) = true := by
    rcases hx : hasNN (strip q) with _ | _
    · exact absurd hx hcon
    · rfl
  have h2 : List.IsInfix ['\n', '\n'] (strip q) :=
    (hasNN_iff_contains_sep (strip q)).mp h1
  have h3 : List.IsInfix ['\n', '\n'] q := h2.trans (strip_infix_self q)
  have h4 : hasNN q = true := (hasNN_iff_contains_sep q).mpr h3
  rw [splitNN_no_nn text q hq] at h4
  exact Bool.noConfusion h4

/-- Joining with the fixed separator `"\n\n"` is joining with
newline-runs of length two. -/
theorem joinNN_eq_joinSeps : ∀ (cs : List Str),
    joinNN cs = joinSeps cs (List.replicate (cs.length - 1) 2) := by
  intro cs
  match cs with
  | [] => rw [joinNN, joinSeps]
  | [c] =>
    rw [joinNN]
    simp [joinSeps]
  | c :: d :: t =>
    rw [joinNN_cons _ _ (by simp), joinNN_eq_joinSeps (d :: t)]
    have hlen : (c :: d :: t).length - 1 = (d :: t).length - 1 + 1 := by
      simp
    rw [hlen, List.replicate_succ, joinSeps]
    simp [List.replicate_succ]

/-- C8: on every text that chunks successfully, every produced chunk is
non-empty, stripped, and contains no blank-line separator, and re-chunking
the chunks joined by `"\n\n"` yields exactly the same chunk sequence. -/
theorem C8_chunk_idempotent (text : Str) (cs : List Str)
    (h : chunk_by_paragraphs text = .ok cs) :
    cs ≠ []
    ∧ (∀ c ∈ cs, c ≠ [] ∧ strip c = c ∧ hasNN c = false)
    ∧ chunk_by_paragraphs (joinNN cs) = .ok cs := by
  rw [chunk_by_paragraphs] at h
  by_cases hstrip : strip text = []
  · rw [if_pos hstrip] at h
    exact Except.noConfusion h
  · rw [if_neg hstrip] at h
    have hcs : cs = chunkCore text := (Except.ok.injEq .. ▸ h).symm
    subst hcs
    have hgood : ∀ c ∈ chunkCore text,
        c ≠ [] ∧ strip c = c ∧ hasNN c = false :=
      fun c hc => chunkCore_mem_good text c hc
    have hne : chunkCore text ≠ [] := by
      intro hcon
      exact hstrip (chunkCore_eq_nil_imp text hcon)
    refine ⟨hne, hgood, ?_⟩
    rw [joinNN_eq_joinSeps]
    rcases hx : chunkCore text with _ | ⟨c0, cs'⟩
    · exact absurd hx hne
    · obtain ⟨h0ne, h0strip, -⟩ := hgood c0 (by rw [hx]; simp)
      rw [chunk_by_paragraphs, if_neg (by
        simpa using strip_joinSeps_ne_nil c0 cs'
          (List.replicate ((c0 :: cs').length - 1) 2) h0ne h0strip)]
      rw [chunkCore_joinSeps (c0 :: cs') _
        (by rw [← hx]; exact hgood) (by simp) (fun k hk => by
          rw [List.eq_of_mem_replicate hk])]

/-- Witness for C8: the chunks of `"a\n\nb"` are non-empty, stripped,
separator-free, and re-chunk to themselves. -/
theorem C8_chunk_idempotent_witness :
    ([['a'], ['b']] : List Str) ≠ []
    ∧ (∀ c ∈ ([['a'], ['b']] : List Str),
        c ≠ [] ∧ strip c = c ∧ hasNN c = false)
    ∧ chunk_by_paragraphs (joinNN [['a'], ['b']]) = .ok [['a'], ['b']] :=
  C8_chunk_idempotent "a\n\nb".toList [['a'], ['b']] (by decide)
